import Mathlib

/-!
Verification of the public-folder resolution pipeline implemented in
src/publicScrapeService.ts.

JavaScript strings are modelled as lists of characters; regular-expression
scans of the source are modelled by explicit character-level scanning
functions with the same leftmost-match / lastIndex semantics.  Network
probes are modelled by an oracle mapping a request URL to the observed
response (a status/body pair when axios resolved, or a transport error).
-/

namespace DriveScraper

/-- JavaScript strings, modelled as their character sequences. -/
abbrev Str := List Char

/-- Character list of a Lean string literal. -/
def lit (s : String) : Str := s.toList

/-- The backslash character. -/
def bs : Char := Char.ofNat 92

/-- The double-quote character. -/
def quot : Char := Char.ofNat 34

/-- The single-quote character. -/
def apos : Char := Char.ofNat 39

/-- Case-sensitive "starts with" over character lists (literal regex parts). -/
def strStarts : Str → Str → Bool
  | [], _ => true
  | _ :: _, [] => false
  | p :: ps, c :: cs => p == c && strStarts ps cs

/-- Case-insensitive "starts with": the JS regex i flag on ASCII literals. -/
def strStartsCI : Str → Str → Bool
  | [], _ => true
  | _ :: _, [] => false
  | p :: ps, c :: cs => p.toLower == c.toLower && strStartsCI ps cs

/-- The JS whitespace class used by both the regex class and String.trim. -/
def isSpaceJS (c : Char) : Bool :=
  c == ' ' || c == Char.ofNat 9 || c == Char.ofNat 10 || c == Char.ofNat 11 ||
  c == Char.ofNat 12 || c == Char.ofNat 13 ||
  c == Char.ofNat 0xa0 || c == Char.ofNat 0x1680 ||
  (Char.ofNat 0x2000 ≤ c && c ≤ Char.ofNat 0x200a) ||
  c == Char.ofNat 0x2028 || c == Char.ofNat 0x2029 || c == Char.ofNat 0x202f ||
  c == Char.ofNat 0x205f || c == Char.ofNat 0x3000 || c == Char.ofNat 0xfeff

/-- JS String.prototype.trim. -/
def trimJS (s : Str) : Str :=
  ((s.dropWhile isSpaceJS).reverse.dropWhile isSpaceJS).reverse

/-- Leftmost-match scan: try the matcher at position 0, 1, ... of the input,
returning the first success (the semantics of an unanchored RegExp.exec). -/
def scanFirst (f : Str → Option α) : Str → Option α
  | [] => f []
  | s@(_ :: t) =>
    match f s with
    | some a => some a
    | none => scanFirst f t

/-- JS String.prototype.indexOf(pat, i) scanning a suffix, carrying the
absolute index of the head of the scanned suffix. -/
def idxFromAux (pat : Str) : Str → Nat → Option Nat
  | [], i => if strStarts pat [] then some i else none
  | s@(_ :: t), i => if strStarts pat s then some i else idxFromAux pat t (i + 1)

/-- JS html.indexOf(pat, start): least index ≥ start where pat occurs. -/
def indexOfFrom (pat s : Str) (start : Nat) : Option Nat :=
  idxFromAux pat (s.drop start) start

/-- Repeated JS String.indexOf loop collecting the non-overlapping occurrence
positions of pat, continuing each search at the previous hit plus pat.length
(the occurrence loop of findBigScriptBlock).  Every iteration consumes at
least one character, so fuel = input length + 1 never runs out. -/
def occAux (pat : Str) : Nat → Str → Nat → List Nat
  | 0, _, _ => []
  | fuel + 1, s, i =>
    match s with
    | [] => []
    | _ :: t =>
      if strStarts pat s then
        i :: occAux pat fuel (t.drop (pat.length - 1)) (i + pat.length)
      else occAux pat fuel t (i + 1)

/-- JS html.substring(a, b) for a ≤ b within range. -/
def strSub (s : Str) (a b : Nat) : Str := (s.drop a).take (b - a)

/-- First index of a character (JS String.prototype.indexOf of a 1-char
needle), used for the embedded-comma truncation. -/
def idxOfChar (c : Char) : Str → Option Nat
  | [] => none
  | x :: xs =>
    if x == c then some 0
    else (idxOfChar c xs).map (· + 1)

/-- Membership of a JS Set of strings (SameValueZero equality). -/
def member (x : Str) (l : List Str) : Bool := l.any (fun y => y == x)

/-- Insertion-order deduplication relative to an already-seen set: an element
is kept exactly when it is its own first occurrence and not already seen. -/
def dedupAux : List Str → List Str → List Str
  | [], _ => []
  | x :: xs, seen =>
    if member x seen then dedupAux xs seen
    else x :: dedupAux xs (x :: seen)

/-- Insertion-order deduplication: the observable content of a JS Set built
by repeated add / of Array.from(new Set(xs)). -/
def dedupKeepFirst (l : List Str) : List Str := dedupAux l []

/-! ### Data model and network oracle -/

/-- The output unit of the pipeline (src/fileTypes.ts DriveFile). -/
structure DriveFile where
  id : Str
  name : Str
  mimeType : Str
  viewUrl : Str
  downloadUrl : Str
deriving DecidableEq, Repr

/-- Observed outcome of one axios.get with validateStatus: () => true —
either a resolved response (any status) or a thrown transport error
(DNS failure, connection reset, timeout). -/
inductive ProbeResult where
  | ok (status : Nat) (body : Str)
  | err
deriving DecidableEq, Repr

/-- The two domain errors thrown by scrapePublicFolder. -/
inductive ScrapeError where
  | notFound
  | accessForbidden
deriving DecidableEq, Repr

/-- Result record of scrapePublicFolder. -/
structure PublicScrapeResult where
  files : List DriveFile
  isEmptyFolder : Bool
deriving DecidableEq, Repr

/-- mimeType string of containers (FOLDER_MIME_TYPE constant). -/
def FOLDER_MIME_TYPE : Str := lit "application/vnd.google-apps.folder"

/-- Container-view URL shape used by both the primary fetch and Pass A. -/
def folderUrlOf (id : Str) : Str :=
  lit "https://drive.google.com/drive/folders/" ++ id

/-- Leaf-view URL shape probed in Pass B and used as a leaf viewUrl. -/
def fileViewUrlOf (id : Str) : Str :=
  lit "https://drive.google.com/file/d/" ++ id ++ lit "/view"

/-- Leaf download URL shape. -/
def downloadUrlOf (id : Str) : Str :=
  lit "https://drive.google.com/uc?export=download&id=" ++ id

/-! ### inferMimeTypeFromName and hasFileExtension -/

/-- The extension → MIME table of inferMimeTypeFromName, in source order
(the source is a chain of endsWith tests; a chain of ||-equal branches
becomes consecutive rows). -/
def mimeTable : List (Str × Str) :=
  [ (lit ".mp4", lit "video/mp4"), (lit ".avi", lit "video/x-msvideo"),
    (lit ".mov", lit "video/quicktime"), (lit ".wmv", lit "video/x-ms-wmv"),
    (lit ".flv", lit "video/x-flv"), (lit ".webm", lit "video/webm"),
    (lit ".mkv", lit "video/x-matroska"), (lit ".m4v", lit "video/x-m4v"),
    (lit ".3gp", lit "video/3gpp"),
    (lit ".mp3", lit "audio/mpeg"), (lit ".wav", lit "audio/wav"),
    (lit ".ogg", lit "audio/ogg"), (lit ".flac", lit "audio/flac"),
    (lit ".aac", lit "audio/aac"), (lit ".m4a", lit "audio/mp4"),
    (lit ".wma", lit "audio/x-ms-wma"),
    (lit ".png", lit "image/png"), (lit ".jpg", lit "image/jpeg"),
    (lit ".jpeg", lit "image/jpeg"), (lit ".gif", lit "image/gif"),
    (lit ".bmp", lit "image/bmp"), (lit ".svg", lit "image/svg+xml"),
    (lit ".webp", lit "image/webp"), (lit ".ico", lit "image/x-icon"),
    (lit ".tiff", lit "image/tiff"), (lit ".tif", lit "image/tiff"),
    (lit ".pdf", lit "application/pdf"), (lit ".doc", lit "application/msword"),
    (lit ".docx", lit "application/vnd.openxmlformats-officedocument.wordprocessingml.document"),
    (lit ".xls", lit "application/vnd.ms-excel"),
    (lit ".xlsx", lit "application/vnd.openxmlformats-officedocument.spreadsheetml.sheet"),
    (lit ".ppt", lit "application/vnd.ms-powerpoint"),
    (lit ".pptx", lit "application/vnd.openxmlformats-officedocument.presentationml.presentation"),
    (lit ".txt", lit "text/plain"), (lit ".rtf", lit "application/rtf"),
    (lit ".csv", lit "text/csv"),
    (lit ".zip", lit "application/zip"), (lit ".rar", lit "application/vnd.rar"),
    (lit ".7z", lit "application/x-7z-compressed"), (lit ".tar", lit "application/x-tar"),
    (lit ".gz", lit "application/gzip"),
    (lit ".json", lit "application/json"), (lit ".xml", lit "application/xml"),
    (lit ".html", lit "text/html"), (lit ".htm", lit "text/html"),
    (lit ".css", lit "text/css"), (lit ".js", lit "application/javascript"),
    (lit ".ts", lit "application/typescript"), (lit ".py", lit "text/x-python"),
    (lit ".java", lit "text/x-java-source"),
    (lit ".c", lit "text/x-c"), (lit ".cpp", lit "text/x-c"), (lit ".h", lit "text/x-c") ]

/-- Case-sensitive "ends with" (checked on an already lowercased name). -/
def strEnds (suffix s : Str) : Bool := strStarts suffix.reverse s.reverse

/-- JS String.toLowerCase restricted to simple case mapping. -/
def toLowerStr (s : Str) : Str := s.map Char.toLower

/-- Infer a leaf media type from the title's extension, defaulting to
application/octet-stream (inferMimeTypeFromName). -/
def inferMimeTypeFromName (name : Str) : Str :=
  let lower := toLowerStr name
  match mimeTable.find? (fun p => strEnds p.1 lower) with
  | some p => p.2
  | none => lit "application/octet-stream"

/-- The known file-extension table of hasFileExtension, in source order. -/
def fileExtensions : List Str :=
  [ lit ".mp4", lit ".avi", lit ".mov", lit ".wmv", lit ".flv", lit ".webm",
    lit ".mkv", lit ".m4v", lit ".3gp", lit ".mpeg", lit ".mpg",
    lit ".mp3", lit ".wav", lit ".ogg", lit ".flac", lit ".aac", lit ".m4a", lit ".wma",
    lit ".png", lit ".jpg", lit ".jpeg", lit ".gif", lit ".bmp", lit ".svg",
    lit ".webp", lit ".ico", lit ".tiff", lit ".tif", lit ".raw",
    lit ".pdf", lit ".doc", lit ".docx", lit ".xls", lit ".xlsx", lit ".ppt",
    lit ".pptx", lit ".txt", lit ".rtf", lit ".csv", lit ".odt", lit ".ods", lit ".odp",
    lit ".zip", lit ".rar", lit ".7z", lit ".tar", lit ".gz", lit ".bz2", lit ".xz",
    lit ".json", lit ".xml", lit ".html", lit ".htm", lit ".css", lit ".js",
    lit ".ts", lit ".py", lit ".java", lit ".c", lit ".cpp", lit ".h", lit ".rb",
    lit ".go", lit ".rs", lit ".php", lit ".sql",
    lit ".exe", lit ".msi", lit ".dmg", lit ".iso", lit ".apk", lit ".ipa",
    lit ".deb", lit ".rpm",
    lit ".epub", lit ".mobi", lit ".azw", lit ".djvu",
    lit ".psd", lit ".ai", lit ".sketch", lit ".fig",
    lit ".srt", lit ".vtt", lit ".ass",
    lit ".torrent", lit ".nfo" ]

/-- Does the (container-probe) title carry a known file extension? -/
def hasFileExtension (name : Str) : Bool :=
  let lower := toLowerStr name
  fileExtensions.any (fun ext => strEnds ext lower)

/-! ### parseTitleFromHtml -/

/-- Matcher at one position for the og:title regex
(meta-space+-property="og:title"-space+-content="([^"]+)", i flag). -/
def matchOgAt (s : Str) : Option Str :=
  if strStartsCI (lit "<meta") s then
    let s1 := s.drop 5
    let w1 := s1.takeWhile isSpaceJS
    if w1.isEmpty then none
    else
      let s2 := s1.drop w1.length
      if strStartsCI (lit "property=\"og:title\"") s2 then
        let s3 := s2.drop 19
        let w2 := s3.takeWhile isSpaceJS
        if w2.isEmpty then none
        else
          let s4 := s3.drop w2.length
          if strStartsCI (lit "content=\"") s4 then
            let s5 := s4.drop 9
            let g := s5.takeWhile (fun c => !(c == quot))
            if g.isEmpty then none
            else
              match s5.drop g.length with
              | c :: _ => if c == quot then some g else none
              | [] => none
          else none
      else none
  else none

/-- Matcher at one position for the title-element regex
(title[^>]*>([^<]+)</title>, i flag). -/
def matchTitleTagAt (s : Str) : Option Str :=
  if strStartsCI (lit "<title") s then
    let s1 := s.drop 6
    let a := s1.takeWhile (fun c => !(c == '>'))
    match s1.drop a.length with
    | c :: s2 =>
      if c == '>' then
        let g := s2.takeWhile (fun d => !(d == '<'))
        if g.isEmpty then none
        else if strStartsCI (lit "</title>") (s2.drop g.length) then some g
        else none
      else none
    | [] => none
  else none

/-- title.replace(/\s*-\s*Google Drive\s*$/i, ""): strip a trailing
" - Google Drive" brand suffix.  The anchored suffix match is computed from
the right; its leftmost-longest start is the maximal whitespace run before
the dash. -/
def stripBrandSuffix (t : Str) : Str :=
  let r := t.reverse
  let r1 := r.dropWhile isSpaceJS
  if strStartsCI (lit "Google Drive").reverse r1 then
    let r2 := r1.drop 12
    let r3 := r2.dropWhile isSpaceJS
    match r3 with
    | c :: r4 => if c == '-' then ((r4.dropWhile isSpaceJS)).reverse else t
    | [] => t
  else t

/-- The fallback document-title branch of parseTitleFromHtml. -/
def titleTagFallback (html : Str) : Option Str :=
  match scanFirst matchTitleTagAt html with
  | some t0 =>
    let t := stripBrandSuffix (trimJS t0)
    if t.isEmpty then none else some t
  | none => none

/-- parseTitleFromHtml: og:title first (falling through when the cleaned
title is empty), then the title element, else null. -/
def parseTitleFromHtml (html : Str) : Option Str :=
  match scanFirst matchOgAt html with
  | some t0 =>
    let t := stripBrandSuffix (trimJS t0)
    if t.isEmpty then titleTagFallback html else some t
  | none => titleTagFallback html

/-! ### parseIdsFromBlock -/

/-- Character class of /^[a-zA-Z0-9_-]+$/. -/
def isIdChar (c : Char) : Bool :=
  ('a' ≤ c && c ≤ 'z') || ('A' ≤ c && c ≤ 'Z') || ('0' ≤ c && c ≤ '9') ||
  c == '_' || c == '-'

/-- Matcher at one position for /data-id="([^"]+)"/, returning the captured
group and the remainder of the input after the match (the g-flag lastIndex
continuation point). -/
def matchDataIdAt (s : Str) : Option (Str × Str) :=
  if strStarts (lit "data-id=\"") s then
    let after := s.drop 9
    let g := after.takeWhile (fun c => !(c == quot))
    if g.isEmpty then none
    else
      match after.drop g.length with
      | c :: _ => if c == quot then some (g, after.drop (g.length + 1)) else none
      | [] => none
  else none

/-- The scan loop of parseIdsFromBlock: repeated RegExp.exec with the g flag,
resuming after the end of each match.  Each iteration consumes at least one
character, so fuel = input length + 1 never runs out. -/
def parseIdsLoopF : Nat → Str → List Str
  | 0, _ => []
  | fuel + 1, s =>
    match scanFirst matchDataIdAt s with
    | none => []
    | some (g, rest) =>
      (if decide (20 ≤ g.length) && g.all isIdChar then [g] else []) ++
        parseIdsLoopF fuel rest

/-- parseIdsFromBlock: collect every data-id attribute value of length ≥ 20
over the id charset. -/
def parseIdsFromBlock (htmlBlock : Str) : List Str :=
  parseIdsLoopF (htmlBlock.length + 1) htmlBlock

/-! ### extractFolderNamesFromRawResponse -/

/-- The four-character escape text opening each quoted field of the embedded
blob (regex literal form of one escaped double quote). -/
def escQuote : Str := [bs, 'x', '2', '2']

/-- The literal tail of the folder-name pattern:
escaped quote, comma, escaped quote, then the text application\/vnd.
Note: the regex stops at the vnd prefix — it does not require the full
folder MIME type. -/
def vndTail : Str :=
  escQuote ++ [','] ++ escQuote ++ lit "application" ++ [bs, '/'] ++ lit "vnd"

/-- Matcher at one position for /\x22([^\\]+?)\x22,\x22application\\\/vnd/
(on the source text level: backslash-escaped pattern characters).  The lazy
group of non-backslash characters must stop exactly at the first backslash,
where the literal tail is then required. -/
def matchFolderPatAt (s : Str) : Option (Str × Str) :=
  if strStarts escQuote s then
    let after := s.drop 4
    let g := after.takeWhile (fun c => !(c == bs))
    if g.isEmpty then none
    else if strStarts vndTail (after.drop g.length) then
      some (g, after.drop (g.length + vndTail.length))
    else none
  else none

/-- Per-match post-processing of extractFolderNamesFromRawResponse:
trim, then keep only the part before a first embedded comma at a positive
index (when that part is nonempty after a second trim). -/
def postName (g : Str) : Option Str :=
  if g.isEmpty then none
  else
    let n1 := trimJS g
    if n1.isEmpty then none
    else
      let n2 :=
        match idxOfChar ',' n1 with
        | some i =>
          if 0 < i then
            let beforeComma := trimJS (n1.take i)
            if 0 < beforeComma.length then beforeComma else n1
          else n1
        | none => n1
      if 0 < n2.length then some n2 else none

/-- The folder-name pattern scan loop (g flag exec loop over the blob). -/
def extractLoopF : Nat → Str → List Str
  | 0, _ => []
  | fuel + 1, s =>
    match scanFirst matchFolderPatAt s with
    | none => []
    | some (g, rest) => (postName g).toList ++ extractLoopF fuel rest

/-- The literal window['_DRIVE_ivd'] prefix of the assignment regex. -/
def ivdLit : Str := lit "window[" ++ [apos] ++ lit "_DRIVE_ivd" ++ [apos] ++ lit "]"

/-- Matcher at one position for
/window\['_DRIVE_ivd'\]\s*=\s*['"]([^'"]+)['"]/s — the embedded assignment
whose value is the escaped string blob. -/
def matchIvdAt (s : Str) : Option Str :=
  if strStarts ivdLit s then
    let s1 := s.drop ivdLit.length
    let s2 := s1.dropWhile isSpaceJS
    match s2 with
    | '=' :: s3 =>
      let s4 := s3.dropWhile isSpaceJS
      match s4 with
      | q :: s5 =>
        if q == apos || q == quot then
          let g := s5.takeWhile (fun c => !(c == apos || c == quot))
          if g.isEmpty then none
          else
            match s5.drop g.length with
            | c :: _ => if c == apos || c == quot then some g else none
            | [] => none
        else none
      | [] => none
    | _ => none
  else none

/-- extractFolderNamesFromRawResponse: the Membership Index.  Empty when the
embedded assignment is absent; otherwise the (first-insertion-ordered) set of
post-processed captured names. -/
def extractFolderNamesFromRawResponse (rawResponse : Str) : List Str :=
  match scanFirst matchIvdAt rawResponse with
  | none => []
  | some driveIvdContent =>
    dedupKeepFirst (extractLoopF (driveIvdContent.length + 1) driveIvdContent)

/-! ### findBigScriptBlock -/

/-- The opening marker of the metadata script block. -/
def markerLit : Str := lit "// Google Inc."

/-- The closing marker. -/
def endMarkerLit : Str := lit "</script></div>"

/-- One candidate (start, end, length) entry of findBigScriptBlock. -/
structure Cand where
  startIdx : Nat
  endIdx : Nat
  len : Nat
deriving DecidableEq, Repr

/-- Build the candidate for one marker occurrence: the nearest closing marker
at or after it, if any (candidates loop body of findBigScriptBlock). -/
def candAt (html : Str) (startIdx : Nat) : Option Cand :=
  match indexOfFrom endMarkerLit html startIdx with
  | some endIdx =>
    some ⟨startIdx, endIdx + endMarkerLit.length,
      endIdx + endMarkerLit.length - startIdx⟩
  | none => none

/-- All marker occurrence positions of the input. -/
def markerOccurrences (html : Str) : List Nat :=
  occAux markerLit (html.length + 1) html 0

/-- All candidate marker pairs of the input, in occurrence order. -/
def candidatesOf (html : Str) : List Cand :=
  (markerOccurrences html).filterMap (candAt html)

/-- The selection loop: keep the first candidate of maximal length
(strictly-greater comparison). -/
def pickLargest (best : Cand) : List Cand → Cand
  | [] => best
  | c :: cs => pickLargest (if best.len < c.len then c else best) cs

/-- Result record of findBigScriptBlock. -/
structure BigBlockResult where
  bigScriptBlock : Str
  bigBlockEndIndex : Nat
deriving DecidableEq, Repr

/-- findBigScriptBlock: locate every "// Google Inc." occurrence, pair each
with the nearest following "</script></div>", and return the largest span. -/
def findBigScriptBlock (html : Str) : Option BigBlockResult :=
  let occurrences := markerOccurrences html
  if occurrences.isEmpty then none
  else
    match candidatesOf html with
    | [] => none
    | c0 :: rest =>
      let largest := pickLargest c0 rest
      some ⟨strSub html largest.startIdx largest.endIdx, largest.endIdx⟩

/-! ### verifyFolderIds and verifyFileIds -/

/-- Classification of one candidate by its Pass A container probe. -/
inductive PassAOutcome where
  | folder (e : DriveFile)
  | file (e : DriveFile)
  | invalid
deriving DecidableEq, Repr

/-- The DriveFile pushed for a verified container. -/
def folderEntryOf (id title : Str) : DriveFile :=
  ⟨id, title, FOLDER_MIME_TYPE, folderUrlOf id, folderUrlOf id⟩

/-- The DriveFile pushed for a leaf detected by extension during Pass A. -/
def detectedFileEntryOf (id title : Str) : DriveFile :=
  ⟨id, title, inferMimeTypeFromName title, fileViewUrlOf id, downloadUrlOf id⟩

/-- One iteration of the verifyFolderIds loop: fetch the container view of
the id and classify by status, parsed title, extension table, and Membership
Index. -/
def passAStep (probe : Str → ProbeResult) (names : List Str) (id : Str) :
    PassAOutcome :=
  match probe (folderUrlOf id) with
  | .err => .invalid
  | .ok status body =>
    if 200 ≤ status ∧ status < 300 then
      match parseTitleFromHtml body with
      | some title =>
        if 0 < title.length then
          if hasFileExtension title && !(member title names) then
            .file (detectedFileEntryOf id title)
          else
            .folder (folderEntryOf id title)
        else .invalid
      | none => .invalid
    else .invalid

/-- Accumulated result of verifyFolderIds. -/
structure PassAResult where
  validFolders : List DriveFile
  invalidIds : List Str
  detectedFiles : List DriveFile
deriving DecidableEq, Repr

/-- verifyFolderIds: probe every id against the container URL; push each to
exactly one of validFolders / detectedFiles / invalidIds. -/
def verifyFolderIds (probe : Str → ProbeResult) (ids : List Str)
    (folderNamesFromRawResponse : List Str) : PassAResult :=
  match ids with
  | [] => ⟨[], [], []⟩
  | id :: restIds =>
    let r := verifyFolderIds probe restIds folderNamesFromRawResponse
    match passAStep probe folderNamesFromRawResponse id with
    | .folder e => ⟨e :: r.validFolders, r.invalidIds, r.detectedFiles⟩
    | .file e => ⟨r.validFolders, r.invalidIds, e :: r.detectedFiles⟩
    | .invalid => ⟨r.validFolders, id :: r.invalidIds, r.detectedFiles⟩

/-- One iteration of the verifyFileIds loop: probe the leaf view; drop the
candidate on failure, unparsable title, or a title claimed by the Membership
Index. -/
def passBStep (probe : Str → ProbeResult) (names : List Str) (id : Str) :
    Option DriveFile :=
  match probe (fileViewUrlOf id) with
  | .err => none
  | .ok status body =>
    if 200 ≤ status ∧ status < 300 then
      match parseTitleFromHtml body with
      | some title =>
        if 0 < title.length then
          if member title names then none
          else some ⟨id, title, inferMimeTypeFromName title,
            fileViewUrlOf id, downloadUrlOf id⟩
        else none
      | none => none
    else none

/-- verifyFileIds: probe every remaining id against the leaf URL, keeping
confirmed leaves in discovery order. -/
def verifyFileIds (probe : Str → ProbeResult) (ids : List Str)
    (folderNamesFromRawResponse : List Str) : List DriveFile :=
  ids.filterMap (passBStep probe folderNamesFromRawResponse)

/-! ### scrapePublicFolder -/

/-- Candidate ids of one run: ids of the big block and of the tail after it,
each deduplicated, then deduplicated again when merged (STEP 4–6). -/
def allCandidateIds (html : Str) : List Str :=
  match findBigScriptBlock html with
  | none => []
  | some blockResult =>
    let uniqueBlockIds := dedupKeepFirst (parseIdsFromBlock blockResult.bigScriptBlock)
    let uniqueTailIds :=
      dedupKeepFirst (parseIdsFromBlock (html.drop blockResult.bigBlockEndIndex))
    dedupKeepFirst (uniqueBlockIds ++ uniqueTailIds)

/-- Pass A over all candidates (STEP 6). -/
def passA (probe : Str → ProbeResult) (html : Str) : PassAResult :=
  verifyFolderIds probe (allCandidateIds html) (extractFolderNamesFromRawResponse html)

/-- The file-candidate pool: the Set built from Pass A's invalid ids (STEP 7). -/
def passBCandidates (probe : Str → ProbeResult) (html : Str) : List Str :=
  dedupKeepFirst (passA probe html).invalidIds

/-- Pass B over the file candidates (STEP 8). -/
def passB (probe : Str → ProbeResult) (html : Str) : List DriveFile :=
  verifyFileIds probe (passBCandidates probe html)
    (extractFolderNamesFromRawResponse html)

/-- STEPs 2–9 of scrapePublicFolder, applied to the fetched markup: build the
Membership Index, locate the big block (early non-error empty result when it
is absent), harvest and verify candidates, and combine. -/
def scrapeCore (probe : Str → ProbeResult) (html : Str) : PublicScrapeResult :=
  match findBigScriptBlock html with
  | none => ⟨[], false⟩
  | some _ =>
    let files := (passA probe html).validFolders ++ (passA probe html).detectedFiles ++
      passB probe html
    ⟨files, files.length == 0⟩

/-- scrapePublicFolder: the primary fetch (given as an oracle outcome) with
its status-to-error mapping, then the core pipeline.  A thrown transport
error on the primary fetch is caught and rethrown as FolderNotFoundError. -/
def scrapePublicFolder (probe : Str → ProbeResult) (primary : ProbeResult)
    (folderId : Str) : Except ScrapeError PublicScrapeResult :=
  match primary with
  | .err => .error .notFound
  | .ok status html =>
    if status = 404 then .error .notFound
    else if status = 403 then .error .accessForbidden
    else if 400 ≤ status then .error .accessForbidden
    else .ok (scrapeCore probe html)

/-- A probe outcome that the verification passes treat as failed: a thrown
transport error or a non-2xx status. -/
def probeFailed : ProbeResult → Bool
  | .err => true
  | .ok status _ => !(decide (200 ≤ status) && decide (status < 300))

/-! ### Concrete exemplar inputs used to instantiate the theorems -/

/-- A page whose two marker pairs tie for the largest span (29 characters
each). -/
def tieHtml : Str :=
  lit "// Google Inc.</script></div>// Google Inc.</script></div>"

/-- A well-formed 20-character candidate identifier. -/
def demoId : Str := lit "AAAAAAAAAABBBBBBBBBB"

/-- A page with one marker pair whose block carries one candidate id. -/
def demoHtml : Str :=
  markerLit ++ lit "data-id=\"AAAAAAAAAABBBBBBBBBB\"" ++ endMarkerLit

/-- A probe body whose parsed title is "Photos.pdf". -/
def demoTitleBody : Str := lit "<title>Photos.pdf</title>"

/-- A Membership Index containing that title. -/
def demoNames : List Str := [lit "Photos.pdf"]

/-- A probe oracle: 200 with the demo body on the demo container URL,
a transport error everywhere else. -/
def demoProbe : Str → ProbeResult :=
  fun u => if u == folderUrlOf demoId then .ok 200 demoTitleBody else .err

/-- A probe oracle that always reports HTTP 500. -/
def failProbe : Str → ProbeResult := fun _ => .ok 500 []

/-- A raw response whose embedded blob tags sheet.xls with the
application\/vnd.ms-excel type (not the folder type). -/
def cexIvd : Str :=
  ivdLit ++ lit " = " ++ [apos] ++
    lit "\\x22sheet.xls\\x22,\\x22application\\/vnd.ms-excel\\x22" ++ [apos]

/-! ### Basic lemmas: prefixes, scans, deduplication -/

theorem strStarts_iff_append {p s : Str} : strStarts p s = true ↔ ∃ t, s = p ++ t := by
  induction p generalizing s with
  | nil => simp [strStarts]
  | cons a ps ih =>
    cases s with
    | nil => simp [strStarts]
    | cons c cs =>
      simp only [strStarts, Bool.and_eq_true, beq_iff_eq, ih, List.cons_append]
      constructor
      · rintro ⟨rfl, t, rfl⟩; exact ⟨t, rfl⟩
      · rintro ⟨t, h⟩
        injection h with h1 h2
        exact ⟨h1.symm, t, h2⟩

theorem strStarts_eq_append {p s : Str} (h : strStarts p s = true) :
    s = p ++ s.drop p.length := by
  obtain ⟨t, rfl⟩ := strStarts_iff_append.mp h
  rw [List.drop_left]

theorem strStarts_length_le {p s : Str} (h : strStarts p s = true) :
    p.length ≤ s.length := by
  obtain ⟨t, rfl⟩ := strStarts_iff_append.mp h
  simp

theorem strStarts_append (p t : Str) : strStarts p (p ++ t) = true :=
  strStarts_iff_append.mpr ⟨t, rfl⟩

theorem strStarts_take {pat w : Str} (h : strStarts pat w = true) {k : Nat}
    (hk : k ≤ pat.length) : pat.take k = w.take k := by
  obtain ⟨t, rfl⟩ := strStarts_iff_append.mp h
  rw [List.take_append_of_le_length hk]

theorem drop_length_takeWhile (p : Char → Bool) (l : Str) :
    l.drop (l.takeWhile p).length = l.dropWhile p := by
  nth_rewrite 2 [← List.takeWhile_append_dropWhile (p := p) (l := l)]
  rw [List.drop_left]

theorem member_iff {x : Str} {l : List Str} : member x l = true ↔ x ∈ l := by
  simp [member]

theorem mem_dedupAux {x : Str} : ∀ {l seen : List Str},
    x ∈ dedupAux l seen ↔ x ∈ l ∧ x ∉ seen := by
  intro l
  induction l with
  | nil => simp [dedupAux]
  | cons y ys ih =>
    intro seen
    rw [dedupAux]
    split
    case isTrue hseen =>
      rw [ih]
      constructor
      · rintro ⟨h1, h2⟩
        exact ⟨List.mem_cons_of_mem _ h1, h2⟩
      · rintro ⟨h1, h2⟩
        rcases List.mem_cons.mp h1 with rfl | h3
        · exact absurd (member_iff.mp hseen) h2
        · exact ⟨h3, h2⟩
    case isFalse hseen =>
      simp only [List.mem_cons, ih, List.mem_cons]
      constructor
      · rintro (rfl | ⟨h1, h2⟩)
        · refine ⟨Or.inl rfl, ?_⟩
          intro hx
          exact absurd (member_iff.mpr hx) (by simpa using hseen)
        · refine ⟨Or.inr h1, ?_⟩
          intro hx
          exact h2 (Or.inr hx)
      · rintro ⟨rfl | h1, h2⟩
        · exact Or.inl rfl
        · by_cases hxy : x = y
          · exact Or.inl hxy
          · right
            refine ⟨h1, ?_⟩
            intro hmem
            rcases hmem with h3 | h3
            · exact hxy h3
            · exact h2 h3

theorem mem_dedupKeepFirst {x : Str} {l : List Str} :
    x ∈ dedupKeepFirst l ↔ x ∈ l := by
  unfold dedupKeepFirst
  rw [mem_dedupAux]
  simp

theorem nodup_dedupAux : ∀ (l seen : List Str), (dedupAux l seen).Nodup
  | [], _ => by simp [dedupAux]
  | y :: ys, seen => by
    rw [dedupAux]
    split
    case isTrue => exact nodup_dedupAux ys seen
    case isFalse hseen =>
      refine List.nodup_cons.mpr ⟨?_, nodup_dedupAux ys (y :: seen)⟩
      rw [mem_dedupAux]
      simp

theorem nodup_dedupKeepFirst (l : List Str) : (dedupKeepFirst l).Nodup :=
  nodup_dedupAux l []

theorem scanFirst_eq_none_iff {α : Type} {f : Str → Option α} {s : Str} :
    scanFirst f s = none ↔ ∀ k, f (s.drop k) = none := by
  induction s with
  | nil =>
    simp only [scanFirst, List.drop_nil]
    exact ⟨fun h _ => h, fun h => h 0⟩
  | cons c t ih =>
    simp only [scanFirst]
    cases hf : f (c :: t) with
    | some a =>
      simp only [reduceCtorEq, false_iff, not_forall]
      exact ⟨0, by simp [hf]⟩
    | none =>
      rw [ih]
      constructor
      · intro h k
        cases k with
        | zero => exact hf
        | succ k => simpa using h k
      · intro h k
        simpa using h (k + 1)

theorem scanFirst_eq_some {α : Type} {f : Str → Option α} {s : Str} {a : α}
    (h : scanFirst f s = some a) :
    ∃ k, f (s.drop k) = some a ∧ ∀ j, j < k → f (s.drop j) = none := by
  induction s with
  | nil =>
    refine ⟨0, by simpa [scanFirst] using h, ?_⟩
    intro j hj; omega
  | cons c t ih =>
    rw [scanFirst] at h
    cases hf : f (c :: t) with
    | some b =>
      rw [hf] at h
      refine ⟨0, by simpa using h.symm ▸ hf, ?_⟩
      intro j hj; omega
    | none =>
      rw [hf] at h
      obtain ⟨k, hk, hlt⟩ := ih h
      refine ⟨k + 1, by simpa using hk, ?_⟩
      intro j hj
      cases j with
      | zero => exact hf
      | succ j => simpa using hlt j (by omega)

theorem idxFromAux_some {pat : Str} : ∀ {s : Str} {i j : Nat},
    idxFromAux pat s i = some j →
    i ≤ j ∧ strStarts pat (s.drop (j - i)) = true ∧
      ∀ m, i ≤ m → m < j → strStarts pat (s.drop (m - i)) = false := by
  intro s
  induction s with
  | nil =>
    intro i j h
    rw [idxFromAux] at h
    split at h
    case isTrue hp =>
      obtain rfl : i = j := by simpa using h
      exact ⟨le_refl _, by simpa using hp, fun m h1 h2 => absurd h1 (by omega)⟩
    case isFalse => exact absurd h (by simp)
  | cons c t ih =>
    intro i j h
    rw [idxFromAux] at h
    split at h
    case isTrue hp =>
      obtain rfl : i = j := by simpa using h
      exact ⟨le_refl _, by simpa using hp, fun m h1 h2 => absurd h1 (by omega)⟩
    case isFalse hp =>
      obtain ⟨h1, h2, h3⟩ := ih h
      refine ⟨by omega, ?_, ?_⟩
      · have : j - i = (j - (i + 1)) + 1 := by omega
        rw [this, List.drop_succ_cons]
        exact h2
      · intro m hm1 hm2
        rcases Nat.eq_or_lt_of_le hm1 with rfl | hlt
        · simpa using (Bool.not_eq_true _).mp hp
        · have : m - i = (m - (i + 1)) + 1 := by omega
          rw [this, List.drop_succ_cons]
          exact h3 m (by omega) hm2

theorem idxFromAux_none {pat : Str} : ∀ {s : Str} {i : Nat},
    idxFromAux pat s i = none →
    ∀ m, i ≤ m → strStarts pat (s.drop (m - i)) = false := by
  intro s
  induction s with
  | nil =>
    intro i h m _
    rw [idxFromAux] at h
    split at h
    case isTrue => exact absurd h (by simp)
    case isFalse hp => simpa using (Bool.not_eq_true _).mp hp
  | cons c t ih =>
    intro i h m hm
    rw [idxFromAux] at h
    split at h
    case isTrue => exact absurd h (by simp)
    case isFalse hp =>
      rcases Nat.eq_or_lt_of_le hm with rfl | hlt
      · simpa using (Bool.not_eq_true _).mp hp
      · have : m - i = (m - (i + 1)) + 1 := by omega
        rw [this, List.drop_succ_cons]
        exact ih h m (by omega)

theorem indexOfFrom_some {pat s : Str} {start j : Nat}
    (h : indexOfFrom pat s start = some j) :
    start ≤ j ∧ strStarts pat (s.drop j) = true ∧
      ∀ m, start ≤ m → m < j → strStarts pat (s.drop m) = false := by
  obtain ⟨h1, h2, h3⟩ := idxFromAux_some h
  rw [List.drop_drop] at h2
  refine ⟨h1, ?_, ?_⟩
  · have heq : start + (j - start) = j := by omega
    rwa [heq] at h2
  · intro m hm1 hm2
    have := h3 m hm1 hm2
    rw [List.drop_drop] at this
    have heq : start + (m - start) = m := by omega
    rwa [heq] at this

theorem indexOfFrom_none {pat s : Str} {start : Nat}
    (h : indexOfFrom pat s start = none) :
    ∀ m, start ≤ m → strStarts pat (s.drop m) = false := by
  intro m hm
  have := idxFromAux_none h m hm
  rw [List.drop_drop] at this
  have heq : start + (m - start) = m := by omega
  rwa [heq] at this

/-! ### Occurrence-scan lemmas (findBigScriptBlock infrastructure) -/

theorem occAux_sound {pat : Str} (hp : pat ≠ []) : ∀ (fuel : Nat) (s : Str) (i j : Nat),
    s.length < fuel → j ∈ occAux pat fuel s i →
    i ≤ j ∧ strStarts pat (s.drop (j - i)) = true := by
  intro fuel
  induction fuel with
  | zero => intro s i j hlt; omega
  | succ fuel ih =>
    intro s i j hlt hmem
    match s with
    | [] => simp [occAux] at hmem
    | c :: t =>
      rw [occAux] at hmem
      have hplen : 1 ≤ pat.length := List.length_pos.mpr hp
      split at hmem
      case isTrue hm =>
        rcases List.mem_cons.mp hmem with rfl | htail
        · exact ⟨le_refl _, by simpa using hm⟩
        · have hlen2 : (t.drop (pat.length - 1)).length < fuel := by
            simp only [List.length_drop]
            simp only [List.length_cons] at hlt
            omega
          have hrec := ih _ _ _ hlen2 htail
          refine ⟨by omega, ?_⟩
          have h1 : (t.drop (pat.length - 1)).drop (j - (i + pat.length)) =
              (c :: t).drop (j - i) := by
            rw [List.drop_drop]
            have hj := hrec.1
            have : j - i = ((pat.length - 1) + (j - (i + pat.length))) + 1 := by omega
            rw [this, List.drop_succ_cons]
          rw [← h1]
          exact hrec.2
      case isFalse hm =>
        have hlen2 : t.length < fuel := by
          simp only [List.length_cons] at hlt
          omega
        have hrec := ih _ _ _ hlen2 hmem
        refine ⟨by omega, ?_⟩
        have h1 : t.drop (j - (i + 1)) = (c :: t).drop (j - i) := by
          have hj := hrec.1
          have : j - i = (j - (i + 1)) + 1 := by omega
          rw [this, List.drop_succ_cons]
        rw [← h1]
        exact hrec.2

theorem occAux_complete {pat : Str} (hp : pat ≠ [])
    (hov : ∀ d, 0 < d → d < pat.length → pat.drop d ≠ pat.take (pat.length - d)) :
    ∀ (fuel : Nat) (s : Str) (i j : Nat), s.length < fuel → i ≤ j →
      strStarts pat (s.drop (j - i)) = true → j ∈ occAux pat fuel s i := by
  intro fuel
  induction fuel with
  | zero => intro s i j hlt; omega
  | succ fuel ih =>
    intro s i j hlt hij hocc
    have hplen : 1 ≤ pat.length := List.length_pos.mpr hp
    match s with
    | [] =>
      exfalso
      rw [List.drop_nil] at hocc
      cases pat with
      | nil => exact hp rfl
      | cons a ps => simp [strStarts] at hocc
    | c :: t =>
      rw [occAux]
      split
      case isTrue hm =>
        rcases Nat.eq_or_lt_of_le hij with rfl | hlt2
        · exact List.mem_cons_self _ _
        · by_cases hcase : j < i + pat.length
          · exfalso
            have hd0 : 0 < j - i := by omega
            have hdlen : j - i < pat.length := by omega
            have hsplit := strStarts_eq_append hm
            have hdrop : (c :: t).drop (j - i) =
                pat.drop (j - i) ++ (c :: t).drop pat.length := by
              conv_lhs => rw [hsplit]
              rw [List.drop_append_of_le_length (by omega)]
            rw [hdrop] at hocc
            have htake := strStarts_take hocc (k := pat.length - (j - i)) (by omega)
            have h2 : (pat.drop (j - i)).take (pat.length - (j - i)) = pat.drop (j - i) :=
              List.take_of_length_le (by simp only [List.length_drop, le_refl])
            rw [List.take_append_of_le_length (by simp only [List.length_drop, le_refl]),
              h2] at htake
            exact hov (j - i) hd0 hdlen htake.symm
          · refine List.mem_cons_of_mem _ ?_
            have hlen2 : (t.drop (pat.length - 1)).length < fuel := by
              simp only [List.length_drop]
              simp only [List.length_cons] at hlt
              omega
            apply ih _ _ _ hlen2 (by omega)
            have h1 : (t.drop (pat.length - 1)).drop (j - (i + pat.length)) =
                (c :: t).drop (j - i) := by
              rw [List.drop_drop]
              have : j - i = ((pat.length - 1) + (j - (i + pat.length))) + 1 := by omega
              rw [this, List.drop_succ_cons]
            rw [h1]
            exact hocc
      case isFalse hm =>
        rcases Nat.eq_or_lt_of_le hij with rfl | hlt2
        · rw [Nat.sub_self, List.drop_zero] at hocc
          exact absurd hocc hm
        · have hlen2 : t.length < fuel := by
            simp only [List.length_cons] at hlt
            omega
          apply ih _ _ _ hlen2 (by omega)
          have h1 : t.drop (j - (i + 1)) = (c :: t).drop (j - i) := by
            have : j - i = (j - (i + 1)) + 1 := by omega
            rw [this, List.drop_succ_cons]
          rw [h1]
          exact hocc

theorem occAux_pairwise {pat : Str} (hp : pat ≠ []) : ∀ (fuel : Nat) (s : Str) (i : Nat),
    s.length < fuel → (occAux pat fuel s i).Pairwise (· < ·) := by
  intro fuel
  induction fuel with
  | zero => intro s i hlt; omega
  | succ fuel ih =>
    intro s i hlt
    have hplen : 1 ≤ pat.length := List.length_pos.mpr hp
    match s with
    | [] => simp [occAux]
    | c :: t =>
      rw [occAux]
      split
      case isTrue hm =>
        have hlen2 : (t.drop (pat.length - 1)).length < fuel := by
          simp only [List.length_drop]
          simp only [List.length_cons] at hlt
          omega
        refine List.pairwise_cons.mpr ⟨?_, ih _ _ hlen2⟩
        intro j hj
        have := (occAux_sound hp fuel _ _ _ hlen2 hj).1
        omega
      case isFalse hm =>
        have hlen2 : t.length < fuel := by
          simp only [List.length_cons] at hlt
          omega
        exact ih t (i + 1) hlen2

theorem pickLargest_spec (b : Cand) (l : List Cand) :
    ∃ l1 l2, b :: l = l1 ++ pickLargest b l :: l2 ∧
      (∀ x ∈ l1, x.len < (pickLargest b l).len) ∧
      (∀ x ∈ l2, x.len ≤ (pickLargest b l).len) := by
  induction l generalizing b with
  | nil => exact ⟨[], [], rfl, by simp, by simp⟩
  | cons c cs ih =>
    rw [pickLargest]
    by_cases hcmp : b.len < c.len
    · simp only [hcmp, if_true]
      obtain ⟨l1, l2, heq, hlt, hle⟩ := ih c
      refine ⟨b :: l1, l2, by rw [List.cons_append, ← heq], ?_, hle⟩
      intro x hx
      rcases List.mem_cons.mp hx with rfl | hx1
      · -- x = b : b.len < c.len ≤ result
        have : c.len ≤ (pickLargest c cs).len := by
          rcases l1 with _ | ⟨y, ys⟩
          · have : c = pickLargest c cs := by
              have := heq
              simp only [List.nil_append, List.cons.injEq] at this
              exact this.1
            rw [← this]
          · have hyc : y = c := by
              have := heq
              simp only [List.cons_append, List.cons.injEq] at this
              exact this.1.symm
            have hylt := hlt y (List.mem_cons_self _ _)
            rw [hyc] at hylt
            omega
        omega
      · exact hlt x hx1
    · simp only [hcmp, if_false]
      obtain ⟨l1, l2, heq, hlt, hle⟩ := ih b
      rcases l1 with _ | ⟨y, ys⟩
      · -- pickLargest b cs = b
        have hb : b = pickLargest b cs := by
          have := heq
          simp only [List.nil_append, List.cons.injEq] at this
          exact this.1
        refine ⟨[], c :: cs, by rw [List.nil_append, ← hb], by simp, ?_⟩
        intro x hx
        rcases List.mem_cons.mp hx with rfl | hx1
        · rw [← hb]; omega
        · -- x ∈ cs = l2 (since heq : b :: cs = b :: l2)
          have hcs : cs = l2 := by
            have := heq
            simp only [List.nil_append, List.cons.injEq] at this
            exact this.2
          exact hle x (hcs ▸ hx1)
      · have hyb : y = b := by
          have := heq
          simp only [List.cons_append, List.cons.injEq] at this
          exact this.1.symm
        have htail : cs = ys ++ pickLargest b cs :: l2 := by
          have := heq
          simp only [List.cons_append, List.cons.injEq] at this
          exact this.2
        refine ⟨b :: c :: ys, l2, ?_, ?_, hle⟩
        · rw [List.cons_append, List.cons_append, ← htail]
        · intro x hx
          have hblt : b.len < (pickLargest b cs).len := by
            have := hlt y (List.mem_cons_self _ _)
            rw [hyb] at this
            exact this
          rcases List.mem_cons.mp hx with rfl | hx1
          · exact hblt
          · rcases List.mem_cons.mp hx1 with rfl | hx2
            · omega
            · exact hlt x (List.mem_cons_of_mem _ hx2)

theorem pickLargest_mem (b : Cand) (l : List Cand) :
    pickLargest b l ∈ b :: l := by
  obtain ⟨l1, l2, heq, _, _⟩ := pickLargest_spec b l
  rw [heq]
  exact List.mem_append_right _ (List.mem_cons_self _ _)

theorem pickLargest_ge (b : Cand) (l : List Cand) :
    ∀ x ∈ b :: l, x.len ≤ (pickLargest b l).len := by
  obtain ⟨l1, l2, heq, hlt, hle⟩ := pickLargest_spec b l
  intro x hx
  rw [heq] at hx
  rcases List.mem_append.mp hx with h1 | h2
  · exact le_of_lt (hlt x h1)
  · rcases List.mem_cons.mp h2 with rfl | h3
    · exact le_refl _
    · exact hle x h3

/-! ### Behavioral lemmas about the classifier -/

theorem titleTagFallback_ne_nil {html t : Str} (h : titleTagFallback html = some t) :
    t ≠ [] := by
  unfold titleTagFallback at h
  split at h
  case h_1 t0 heq =>
    simp only at h
    split at h
    case isTrue => exact absurd h (by simp)
    case isFalse hne =>
      obtain rfl : t = stripBrandSuffix (trimJS t0) := by simpa using h.symm
      simpa using hne
  case h_2 => exact absurd h (by simp)

theorem parseTitleFromHtml_ne_nil {html t : Str}
    (h : parseTitleFromHtml html = some t) : t ≠ [] := by
  unfold parseTitleFromHtml at h
  split at h
  case h_1 t0 heq =>
    simp only at h
    split at h
    case isTrue => exact titleTagFallback_ne_nil h
    case isFalse hne =>
      obtain rfl : t = stripBrandSuffix (trimJS t0) := by simpa using h.symm
      simpa using hne
  case h_2 => exact titleTagFallback_ne_nil h

theorem passAStep_folder_of {probe : Str → ProbeResult} {names : List Str}
    {id : Str} {st : Nat} {body title : Str}
    (hprobe : probe (folderUrlOf id) = .ok st body)
    (h2xx : 200 ≤ st ∧ st < 300)
    (htitle : parseTitleFromHtml body = some title)
    (hmem : member title names = true ∨ hasFileExtension title = false) :
    passAStep probe names id = .folder (folderEntryOf id title) := by
  have hne := parseTitleFromHtml_ne_nil htitle
  unfold passAStep
  rw [hprobe]
  simp only [h2xx, if_true, htitle]
  have hlen : 0 < title.length := List.length_pos.mpr hne
  simp only [hlen, if_true]
  have hcond : (hasFileExtension title && !(member title names)) = false := by
    rcases hmem with hm | hm <;> simp [hm]
  simp [hcond]

theorem passAStep_invalid_of_failed {probe : Str → ProbeResult} {names : List Str}
    {id : Str} (h : probeFailed (probe (folderUrlOf id)) = true) :
    passAStep probe names id = .invalid := by
  unfold passAStep
  cases hp : probe (folderUrlOf id) with
  | err => rfl
  | ok st body =>
    rw [hp] at h
    unfold probeFailed at h
    have : ¬(200 ≤ st ∧ st < 300) := by
      intro ⟨ha, hb⟩
      simp [ha, hb] at h
    simp [this]

theorem passAStep_folder_inv {probe : Str → ProbeResult} {names : List Str}
    {id : Str} {e : DriveFile} (h : passAStep probe names id = .folder e) :
    ∃ title, e = folderEntryOf id title := by
  unfold passAStep at h
  cases hp : probe (folderUrlOf id) with
  | err => rw [hp] at h; exact absurd h (by simp)
  | ok st body =>
    rw [hp] at h
    dsimp only at h
    split at h
    case isFalse => exact absurd h (by simp)
    case isTrue h2xx =>
      split at h
      case h_2 => exact absurd h (by simp)
      case h_1 title ht =>
        split at h
        case isFalse => exact absurd h (by simp)
        case isTrue hlen =>
          split at h
          case isTrue => exact absurd h (by simp)
          case isFalse =>
            refine ⟨title, ?_⟩
            have := h
            simp only [PassAOutcome.folder.injEq] at this
            exact this.symm

theorem passAStep_file_inv {probe : Str → ProbeResult} {names : List Str}
    {id : Str} {e : DriveFile} (h : passAStep probe names id = .file e) :
    ∃ title, e = detectedFileEntryOf id title ∧ hasFileExtension title = true ∧
      member title names = false := by
  unfold passAStep at h
  cases hp : probe (folderUrlOf id) with
  | err => rw [hp] at h; exact absurd h (by simp)
  | ok st body =>
    rw [hp] at h
    dsimp only at h
    split at h
    case isFalse => exact absurd h (by simp)
    case isTrue h2xx =>
      split at h
      case h_2 => exact absurd h (by simp)
      case h_1 title ht =>
        split at h
        case isFalse => exact absurd h (by simp)
        case isTrue hlen =>
          split at h
          case isFalse => exact absurd h (by simp)
          case isTrue hcond =>
            have hext := hcond
            simp only [Bool.and_eq_true, Bool.not_eq_true'] at hext
            refine ⟨title, ?_, hext.1, hext.2⟩
            have := h
            simp only [PassAOutcome.file.injEq] at this
            exact this.symm

theorem passBStep_none_of_failed {probe : Str → ProbeResult} {names : List Str}
    {id : Str} (h : probeFailed (probe (fileViewUrlOf id)) = true) :
    passBStep probe names id = none := by
  unfold passBStep
  cases hp : probe (fileViewUrlOf id) with
  | err => rfl
  | ok st body =>
    rw [hp] at h
    unfold probeFailed at h
    have : ¬(200 ≤ st ∧ st < 300) := by
      intro ⟨ha, hb⟩
      simp [ha, hb] at h
    simp [this]

theorem passBStep_some_inv {probe : Str → ProbeResult} {names : List Str}
    {id : Str} {e : DriveFile} (h : passBStep probe names id = some e) :
    e.id = id ∧ member e.name names = false := by
  unfold passBStep at h
  cases hp : probe (fileViewUrlOf id) with
  | err => rw [hp] at h; exact absurd h (by simp)
  | ok st body =>
    rw [hp] at h
    dsimp only at h
    split at h
    case isFalse => exact absurd h (by simp)
    case isTrue h2xx =>
      split at h
      case h_2 => exact absurd h (by simp)
      case h_1 title ht =>
        split at h
        case isFalse => exact absurd h (by simp)
        case isTrue hlen =>
          split at h
          case isTrue => exact absurd h (by simp)
          case isFalse hmem =>
            have he : e = ⟨id, title, inferMimeTypeFromName title,
                fileViewUrlOf id, downloadUrlOf id⟩ := by simpa using h.symm
            subst he
            exact ⟨rfl, by simpa using hmem⟩

/-! ### Verification-loop characterizations -/

theorem verifyFolderIds_cons_folder {probe : Str → ProbeResult} {names : List Str}
    {id : Str} {rest : List Str} {e0 : DriveFile}
    (hstep : passAStep probe names id = .folder e0) :
    verifyFolderIds probe (id :: rest) names =
      ⟨e0 :: (verifyFolderIds probe rest names).validFolders,
       (verifyFolderIds probe rest names).invalidIds,
       (verifyFolderIds probe rest names).detectedFiles⟩ := by
  rw [verifyFolderIds, hstep]

theorem verifyFolderIds_cons_file {probe : Str → ProbeResult} {names : List Str}
    {id : Str} {rest : List Str} {e0 : DriveFile}
    (hstep : passAStep probe names id = .file e0) :
    verifyFolderIds probe (id :: rest) names =
      ⟨(verifyFolderIds probe rest names).validFolders,
       (verifyFolderIds probe rest names).invalidIds,
       e0 :: (verifyFolderIds probe rest names).detectedFiles⟩ := by
  rw [verifyFolderIds, hstep]

theorem verifyFolderIds_cons_invalid {probe : Str → ProbeResult} {names : List Str}
    {id : Str} {rest : List Str}
    (hstep : passAStep probe names id = .invalid) :
    verifyFolderIds probe (id :: rest) names =
      ⟨(verifyFolderIds probe rest names).validFolders,
       id :: (verifyFolderIds probe rest names).invalidIds,
       (verifyFolderIds probe rest names).detectedFiles⟩ := by
  rw [verifyFolderIds, hstep]

theorem mem_validFolders_iff {probe : Str → ProbeResult} {names : List Str}
    {ids : List Str} {e : DriveFile} :
    e ∈ (verifyFolderIds probe ids names).validFolders ↔
      ∃ id ∈ ids, passAStep probe names id = .folder e := by
  induction ids with
  | nil => simp [verifyFolderIds]
  | cons id rest ih =>
    cases hstep : passAStep probe names id with
    | folder e0 =>
      rw [verifyFolderIds_cons_folder hstep]
      simp only [List.mem_cons, ih]
      constructor
      · rintro (rfl | ⟨i, hi, hs⟩)
        · exact ⟨id, Or.inl rfl, hstep⟩
        · exact ⟨i, Or.inr hi, hs⟩
      · rintro ⟨i, hi, hs⟩
        rcases hi with rfl | hi1
        · left; rw [hstep] at hs; simpa using hs.symm
        · right; exact ⟨i, hi1, hs⟩
    | file e0 =>
      rw [verifyFolderIds_cons_file hstep]
      simp only [ih]
      constructor
      · rintro ⟨i, hi, hs⟩
        exact ⟨i, List.mem_cons_of_mem _ hi, hs⟩
      · rintro ⟨i, hi, hs⟩
        rcases List.mem_cons.mp hi with rfl | hi1
        · rw [hstep] at hs; exact absurd hs (by simp)
        · exact ⟨i, hi1, hs⟩
    | invalid =>
      rw [verifyFolderIds_cons_invalid hstep]
      simp only [ih]
      constructor
      · rintro ⟨i, hi, hs⟩
        exact ⟨i, List.mem_cons_of_mem _ hi, hs⟩
      · rintro ⟨i, hi, hs⟩
        rcases List.mem_cons.mp hi with rfl | hi1
        · rw [hstep] at hs; exact absurd hs (by simp)
        · exact ⟨i, hi1, hs⟩

theorem mem_detectedFiles_iff {probe : Str → ProbeResult} {names : List Str}
    {ids : List Str} {e : DriveFile} :
    e ∈ (verifyFolderIds probe ids names).detectedFiles ↔
      ∃ id ∈ ids, passAStep probe names id = .file e := by
  induction ids with
  | nil => simp [verifyFolderIds]
  | cons id rest ih =>
    cases hstep : passAStep probe names id with
    | file e0 =>
      rw [verifyFolderIds_cons_file hstep]
      simp only [List.mem_cons, ih]
      constructor
      · rintro (rfl | ⟨i, hi, hs⟩)
        · exact ⟨id, Or.inl rfl, hstep⟩
        · exact ⟨i, Or.inr hi, hs⟩
      · rintro ⟨i, hi, hs⟩
        rcases hi with rfl | hi1
        · left; rw [hstep] at hs; simpa using hs.symm
        · right; exact ⟨i, hi1, hs⟩
    | folder e0 =>
      rw [verifyFolderIds_cons_folder hstep]
      simp only [ih]
      constructor
      · rintro ⟨i, hi, hs⟩
        exact ⟨i, List.mem_cons_of_mem _ hi, hs⟩
      · rintro ⟨i, hi, hs⟩
        rcases List.mem_cons.mp hi with rfl | hi1
        · rw [hstep] at hs; exact absurd hs (by simp)
        · exact ⟨i, hi1, hs⟩
    | invalid =>
      rw [verifyFolderIds_cons_invalid hstep]
      simp only [ih]
      constructor
      · rintro ⟨i, hi, hs⟩
        exact ⟨i, List.mem_cons_of_mem _ hi, hs⟩
      · rintro ⟨i, hi, hs⟩
        rcases List.mem_cons.mp hi with rfl | hi1
        · rw [hstep] at hs; exact absurd hs (by simp)
        · exact ⟨i, hi1, hs⟩

theorem mem_invalidIds_iff {probe : Str → ProbeResult} {names : List Str}
    {ids : List Str} {id : Str} :
    id ∈ (verifyFolderIds probe ids names).invalidIds ↔
      id ∈ ids ∧ passAStep probe names id = .invalid := by
  induction ids with
  | nil => simp [verifyFolderIds]
  | cons i0 rest ih =>
    cases hstep : passAStep probe names i0 with
    | folder e0 =>
      rw [verifyFolderIds_cons_folder hstep]
      rw [ih]
      constructor
      · rintro ⟨hi, hs⟩
        exact ⟨List.mem_cons_of_mem _ hi, hs⟩
      · rintro ⟨hi, hs⟩
        rcases List.mem_cons.mp hi with rfl | hi1
        · rw [hstep] at hs; exact absurd hs (by simp)
        · exact ⟨hi1, hs⟩
    | file e0 =>
      rw [verifyFolderIds_cons_file hstep]
      rw [ih]
      constructor
      · rintro ⟨hi, hs⟩
        exact ⟨List.mem_cons_of_mem _ hi, hs⟩
      · rintro ⟨hi, hs⟩
        rcases List.mem_cons.mp hi with rfl | hi1
        · rw [hstep] at hs; exact absurd hs (by simp)
        · exact ⟨hi1, hs⟩
    | invalid =>
      rw [verifyFolderIds_cons_invalid hstep]
      simp only [List.mem_cons, ih]
      constructor
      · rintro (rfl | ⟨hi, hs⟩)
        · exact ⟨Or.inl rfl, hstep⟩
        · exact ⟨Or.inr hi, hs⟩
      · rintro ⟨hi, hs⟩
        rcases hi with rfl | hi1
        · left; rfl
        · right; exact ⟨hi1, hs⟩

theorem mem_verifyFileIds_iff {probe : Str → ProbeResult} {names : List Str}
    {ids : List Str} {e : DriveFile} :
    e ∈ verifyFileIds probe ids names ↔
      ∃ id ∈ ids, passBStep probe names id = some e := by
  unfold verifyFileIds
  exact List.mem_filterMap

theorem passAStep_folder_id {probe : Str → ProbeResult} {names : List Str}
    {id : Str} {e : DriveFile} (h : passAStep probe names id = .folder e) :
    e.id = id := by
  obtain ⟨t, rfl⟩ := passAStep_folder_inv h
  rfl

theorem passAStep_file_id {probe : Str → ProbeResult} {names : List Str}
    {id : Str} {e : DriveFile} (h : passAStep probe names id = .file e) :
    e.id = id := by
  obtain ⟨t, rfl, -, -⟩ := passAStep_file_inv h
  rfl

theorem validFolders_map_sublist (probe : Str → ProbeResult) (names : List Str) :
    ∀ ids : List Str,
      List.Sublist ((verifyFolderIds probe ids names).validFolders.map DriveFile.id) ids
  | [] => by simp [verifyFolderIds]
  | id :: rest => by
    cases hstep : passAStep probe names id with
    | folder e0 =>
      rw [verifyFolderIds_cons_folder hstep]
      dsimp only
      rw [List.map_cons, passAStep_folder_id hstep]
      exact (validFolders_map_sublist probe names rest).cons₂ _
    | file e0 =>
      rw [verifyFolderIds_cons_file hstep]
      dsimp only
      exact (validFolders_map_sublist probe names rest).cons _
    | invalid =>
      rw [verifyFolderIds_cons_invalid hstep]
      dsimp only
      exact (validFolders_map_sublist probe names rest).cons _

theorem detectedFiles_map_sublist (probe : Str → ProbeResult) (names : List Str) :
    ∀ ids : List Str,
      List.Sublist ((verifyFolderIds probe ids names).detectedFiles.map DriveFile.id) ids
  | [] => by simp [verifyFolderIds]
  | id :: rest => by
    cases hstep : passAStep probe names id with
    | folder e0 =>
      rw [verifyFolderIds_cons_folder hstep]
      dsimp only
      exact (detectedFiles_map_sublist probe names rest).cons _
    | file e0 =>
      rw [verifyFolderIds_cons_file hstep]
      dsimp only
      rw [List.map_cons, passAStep_file_id hstep]
      exact (detectedFiles_map_sublist probe names rest).cons₂ _
    | invalid =>
      rw [verifyFolderIds_cons_invalid hstep]
      dsimp only
      exact (detectedFiles_map_sublist probe names rest).cons _

theorem invalidIds_sublist (probe : Str → ProbeResult) (names : List Str) :
    ∀ ids : List Str,
      List.Sublist (verifyFolderIds probe ids names).invalidIds ids
  | [] => by simp [verifyFolderIds]
  | id :: rest => by
    cases hstep : passAStep probe names id with
    | folder e0 =>
      rw [verifyFolderIds_cons_folder hstep]
      dsimp only
      exact (invalidIds_sublist probe names rest).cons _
    | file e0 =>
      rw [verifyFolderIds_cons_file hstep]
      dsimp only
      exact (invalidIds_sublist probe names rest).cons _
    | invalid =>
      rw [verifyFolderIds_cons_invalid hstep]
      dsimp only
      exact (invalidIds_sublist probe names rest).cons₂ _

theorem verifyFileIds_map_sublist (probe : Str → ProbeResult) (names : List Str) :
    ∀ ids : List Str,
      List.Sublist ((verifyFileIds probe ids names).map DriveFile.id) ids
  | [] => by simp [verifyFileIds]
  | id :: rest => by
    unfold verifyFileIds
    rw [List.filterMap_cons]
    cases hstep : passBStep probe names id with
    | none => exact (verifyFileIds_map_sublist probe names rest).cons _
    | some e =>
      rw [List.map_cons, (passBStep_some_inv hstep).1]
      exact (verifyFileIds_map_sublist probe names rest).cons₂ _

theorem scrapeCore_files (probe : Str → ProbeResult) (html : Str) :
    (scrapeCore probe html).files =
      (passA probe html).validFolders ++ (passA probe html).detectedFiles ++
        passB probe html := by
  unfold scrapeCore
  cases hb : findBigScriptBlock html with
  | none =>
    have hids : allCandidateIds html = [] := by
      unfold allCandidateIds
      rw [hb]
    dsimp only
    unfold passB passBCandidates passA
    rw [hids]
    simp [verifyFolderIds, dedupKeepFirst, dedupAux, verifyFileIds]
  | some br => rfl

theorem parseIdsLoopF_shape {id : Str} : ∀ (fuel : Nat) (s : Str),
    id ∈ parseIdsLoopF fuel s → 20 ≤ id.length ∧ id.all isIdChar = true := by
  intro fuel
  induction fuel with
  | zero => intro s h; simp [parseIdsLoopF] at h
  | succ fuel ih =>
    intro s h
    rw [parseIdsLoopF] at h
    cases hscan : scanFirst matchDataIdAt s with
    | none => rw [hscan] at h; simp at h
    | some p =>
      obtain ⟨g, rest⟩ := p
      rw [hscan] at h
      rcases List.mem_append.mp h with h1 | h2
      · split at h1
        case isTrue hcond =>
          obtain rfl : id = g := by simpa using h1
          simpa [Bool.and_eq_true, decide_eq_true_eq] using hcond
        case isFalse => simp at h1
      · exact ih rest h2

theorem findBigScriptBlock_eq_none_iff {html : Str} :
    findBigScriptBlock html = none ↔ candidatesOf html = [] := by
  unfold findBigScriptBlock
  by_cases hocc : (markerOccurrences html).isEmpty
  · simp only [hocc, if_true, true_iff]
    unfold candidatesOf
    rw [List.isEmpty_iff.mp hocc]
    rfl
  · simp only [hocc, Bool.false_eq_true, if_false]
    cases hc : candidatesOf html with
    | nil => simp
    | cons c0 rest => simp

theorem findBigScriptBlock_eq_some {html : Str} {c0 : Cand} {rest : List Cand}
    (hc : candidatesOf html = c0 :: rest) :
    findBigScriptBlock html =
      some ⟨strSub html (pickLargest c0 rest).startIdx (pickLargest c0 rest).endIdx,
        (pickLargest c0 rest).endIdx⟩ := by
  unfold findBigScriptBlock
  have hocc : (markerOccurrences html).isEmpty = false := by
    cases ho : markerOccurrences html with
    | nil =>
      exfalso
      have : candidatesOf html = [] := by
        unfold candidatesOf
        rw [ho]
        rfl
      rw [this] at hc
      exact absurd hc (by simp)
    | cons a b => simp
  simp only [hocc, Bool.false_eq_true, if_false, hc]

/-! ### Claim theorems -/

/-- C9: for every markup fragment, every identifier returned by the id
extractor (parseIdsFromBlock) has length at least 20 and consists only of
characters from the class A-Z, a-z, 0-9, underscore, hyphen. -/
theorem extractIds_shape (fragment : Str) (id : Str)
    (h : id ∈ parseIdsFromBlock fragment) :
    20 ≤ id.length ∧ id.all isIdChar = true :=
  parseIdsLoopF_shape _ _ h

/-- Witness for C9 at a concrete fragment with one conforming id. -/
theorem extractIds_shape_witness :
    demoId ∈ parseIdsFromBlock (lit "data-id=\"AAAAAAAAAABBBBBBBBBB\"") ∧
      (20 ≤ demoId.length ∧ demoId.all isIdChar = true) :=
  ⟨by decide,
    extractIds_shape (lit "data-id=\"AAAAAAAAAABBBBBBBBBB\"") demoId (by decide)⟩

/-- C2: the primary folder-page fetch maps its outcome to domain errors that
abort the whole resolution: a transport failure and HTTP 404 both fail with
FolderNotFoundError, HTTP 403 and every other 4xx/5xx status fail with
PublicAccessForbiddenError, and the error is surfaced unchanged. -/
theorem primary_fetch_error_mapping (probe : Str → ProbeResult)
    (folderId body : Str) (st : Nat) :
    scrapePublicFolder probe .err folderId = .error .notFound ∧
    scrapePublicFolder probe (.ok 404 body) folderId = .error .notFound ∧
    scrapePublicFolder probe (.ok 403 body) folderId = .error .accessForbidden ∧
    (400 ≤ st → st ≤ 599 → st ≠ 404 →
      scrapePublicFolder probe (.ok st body) folderId = .error .accessForbidden) := by
  refine ⟨rfl, by simp [scrapePublicFolder], by simp [scrapePublicFolder], ?_⟩
  intro h400 h599 h404
  unfold scrapePublicFolder
  dsimp only
  split_ifs <;> first | rfl | omega

/-- Witness for C2 at HTTP 500. -/
theorem primary_fetch_error_mapping_witness :
    (400 ≤ 500 ∧ (500 : Nat) ≤ 599 ∧ (500 : Nat) ≠ 404) ∧
      scrapePublicFolder failProbe (.ok 500 []) demoId = .error .accessForbidden :=
  ⟨by decide,
    (primary_fetch_error_mapping failProbe demoId [] 500).2.2.2
      (by decide) (by decide) (by decide)⟩

/-- C8: the pipeline is deterministic — two runs over byte-identical markup
with every probe response held constant produce identical results (the
embedding is a pure function of the primary outcome and the probe oracle). -/
theorem resolution_idempotent (p1 p2 : Str → ProbeResult) (pr1 pr2 : ProbeResult)
    (f1 f2 : Str) (hp : p1 = p2) (hpr : pr1 = pr2) (hf : f1 = f2) :
    scrapePublicFolder p1 pr1 f1 = scrapePublicFolder p2 pr2 f2 := by
  subst hp hpr hf
  rfl

/-- Witness for C8 at concrete inputs. -/
theorem resolution_idempotent_witness :
    scrapePublicFolder failProbe (.ok 200 demoHtml) demoId =
      scrapePublicFolder failProbe (.ok 200 demoHtml) demoId :=
  resolution_idempotent failProbe failProbe (.ok 200 demoHtml) (.ok 200 demoHtml)
    demoId demoId rfl rfl rfl

/-- C7: an HTTP 200 page with zero marker pairs yields the non-error result
with no entries and isEmptyFolder = false (structural parse failure), while a
run that located a blob but produced zero entries reports
isEmptyFolder = true. -/
theorem parse_failure_empty_result (probe : Str → ProbeResult)
    (folderId html : Str) :
    (candidatesOf html = [] →
      scrapePublicFolder probe (.ok 200 html) folderId = .ok ⟨[], false⟩) ∧
    (findBigScriptBlock html ≠ none → (scrapeCore probe html).files = [] →
      (scrapeCore probe html).isEmptyFolder = true) := by
  constructor
  · intro hc
    have hnone : findBigScriptBlock html = none :=
      findBigScriptBlock_eq_none_iff.mpr hc
    unfold scrapePublicFolder
    simp only [show ¬((200 : Nat) = 404) by decide, if_false,
      show ¬((200 : Nat) = 403) by decide, show ¬((400 : Nat) ≤ 200) by decide]
    unfold scrapeCore
    rw [hnone]
  · intro hne hfiles
    unfold scrapeCore at hfiles ⊢
    cases hb : findBigScriptBlock html with
    | none => exact absurd hb hne
    | some br =>
      rw [hb] at hfiles
      dsimp only at hfiles ⊢
      rw [hfiles]
      rfl

/-- Witness for C7: a page with no markers (part one) and the demo page, on
which every probe fails, yielding a located blob with zero entries (part
two). -/
theorem parse_failure_empty_result_witness :
    (candidatesOf [] = [] ∧
      scrapePublicFolder failProbe (.ok 200 []) demoId = .ok ⟨[], false⟩) ∧
    (findBigScriptBlock demoHtml ≠ none ∧
      (scrapeCore failProbe demoHtml).files = [] ∧
      (scrapeCore failProbe demoHtml).isEmptyFolder = true) :=
  ⟨⟨by decide, (parse_failure_empty_result failProbe demoId []).1 (by decide)⟩,
   ⟨by decide, by decide,
    (parse_failure_empty_result failProbe demoId demoHtml).2 (by decide) (by decide)⟩⟩

/-- C1: for a candidate whose Pass A container probe returns a 2xx page with
a parsable title, if the title carries a recognized file extension AND is
present in the Membership Index, the candidate is classified as Container —
folder MIME type, view and fetch locators both the container URL — never as
an extension-detected Leaf; an entry is leaf-classified by the extension
heuristic only when its title is absent from the Membership Index. -/
theorem membership_overrides_extension (probe : Str → ProbeResult)
    (names ids : List Str) (id : Str) (st : Nat) (body title : Str)
    (hprobe : probe (folderUrlOf id) = .ok st body)
    (h200 : 200 ≤ st) (h300 : st < 300)
    (htitle : parseTitleFromHtml body = some title)
    (hext : hasFileExtension title = true)
    (hmem : member title names = true) :
    (id ∈ ids →
      folderEntryOf id title ∈ (verifyFolderIds probe ids names).validFolders) ∧
    (∀ e ∈ (verifyFolderIds probe ids names).detectedFiles, e.id ≠ id) ∧
    (∀ e ∈ (verifyFolderIds probe ids names).detectedFiles,
      member e.name names = false) := by
  have hstep : passAStep probe names id = .folder (folderEntryOf id title) :=
    passAStep_folder_of hprobe ⟨h200, h300⟩ htitle (Or.inl hmem)
  refine ⟨?_, ?_, ?_⟩
  · intro hid
    exact mem_validFolders_iff.mpr ⟨id, hid, hstep⟩
  · intro e he heq
    obtain ⟨i, hi, hs⟩ := mem_detectedFiles_iff.mp he
    have hei : e.id = i := passAStep_file_id hs
    have hii : i = id := by rw [← hei, heq]
    rw [hii, hstep] at hs
    exact absurd hs (by simp)
  · intro e he
    obtain ⟨i, hi, hs⟩ := mem_detectedFiles_iff.mp he
    obtain ⟨t, rfl, hext2, hmem2⟩ := passAStep_file_inv hs
    exact hmem2

/-- Witness for C1: a title "Photos.pdf" with a recognized extension that the
Membership Index claims as a folder is classified Container. -/
theorem membership_overrides_extension_witness :
    (demoProbe (folderUrlOf demoId) = .ok 200 demoTitleBody ∧
      parseTitleFromHtml demoTitleBody = some (lit "Photos.pdf") ∧
      hasFileExtension (lit "Photos.pdf") = true ∧
      member (lit "Photos.pdf") demoNames = true) ∧
    ((demoId ∈ [demoId] →
        folderEntryOf demoId (lit "Photos.pdf") ∈
          (verifyFolderIds demoProbe [demoId] demoNames).validFolders) ∧
      (∀ e ∈ (verifyFolderIds demoProbe [demoId] demoNames).detectedFiles,
        e.id ≠ demoId) ∧
      (∀ e ∈ (verifyFolderIds demoProbe [demoId] demoNames).detectedFiles,
        member e.name demoNames = false)) :=
  ⟨⟨by decide, by decide, by decide, by decide⟩,
    membership_overrides_extension demoProbe demoNames [demoId] demoId 200
      demoTitleBody (lit "Photos.pdf") (by decide) (by decide) (by decide)
      (by decide) (by decide) (by decide)⟩

/-- C6: a failed probe (transport error or non-2xx status) for one candidate
never aborts the batch: the candidate is recorded invalid in Pass A (hence
re-probed in Pass B), contributes no entry to either pass when its Pass B
probe also fails, and the resolution still completes without error. -/
theorem failed_probe_nonfatal (probe : Str → ProbeResult) (html folderId id : Str)
    (hA : probeFailed (probe (folderUrlOf id)) = true)
    (hB : probeFailed (probe (fileViewUrlOf id)) = true) :
    (id ∈ allCandidateIds html →
      id ∈ (passA probe html).invalidIds ∧ id ∈ passBCandidates probe html) ∧
    (∀ e ∈ (passA probe html).validFolders, e.id ≠ id) ∧
    (∀ e ∈ (passA probe html).detectedFiles, e.id ≠ id) ∧
    (∀ e ∈ (scrapeCore probe html).files, e.id ≠ id) ∧
    scrapePublicFolder probe (.ok 200 html) folderId = .ok (scrapeCore probe html) := by
  have hstepA : passAStep probe (extractFolderNamesFromRawResponse html) id = .invalid :=
    passAStep_invalid_of_failed hA
  have hstepB : passBStep probe (extractFolderNamesFromRawResponse html) id = none :=
    passBStep_none_of_failed hB
  have hvf : ∀ e ∈ (passA probe html).validFolders, e.id ≠ id := by
    intro e he heq
    obtain ⟨i, hi, hs⟩ := mem_validFolders_iff.mp he
    have hei : e.id = i := passAStep_folder_id hs
    have hii : i = id := by rw [← hei, heq]
    rw [hii, hstepA] at hs
    exact absurd hs (by simp)
  have hdf : ∀ e ∈ (passA probe html).detectedFiles, e.id ≠ id := by
    intro e he heq
    obtain ⟨i, hi, hs⟩ := mem_detectedFiles_iff.mp he
    have hei : e.id = i := passAStep_file_id hs
    have hii : i = id := by rw [← hei, heq]
    rw [hii, hstepA] at hs
    exact absurd hs (by simp)
  refine ⟨?_, hvf, hdf, ?_, ?_⟩
  · intro hid
    have hinv : id ∈ (passA probe html).invalidIds :=
      mem_invalidIds_iff.mpr ⟨hid, hstepA⟩
    exact ⟨hinv, mem_dedupKeepFirst.mpr hinv⟩
  · intro e he heq
    rw [scrapeCore_files] at he
    rcases List.mem_append.mp he with h1 | h2
    · rcases List.mem_append.mp h1 with h3 | h4
      · exact hvf e h3 heq
      · exact hdf e h4 heq
    · obtain ⟨i, hi, hs⟩ := mem_verifyFileIds_iff.mp h2
      have hei : e.id = i := (passBStep_some_inv hs).1
      have hii : i = id := by rw [← hei, heq]
      rw [hii, hstepB] at hs
      exact absurd hs (by simp)
  · simp [scrapePublicFolder]

/-- Witness for C6: every probe of the demo page answers HTTP 500; the sole
candidate id is dropped by both passes without error. -/
theorem failed_probe_nonfatal_witness :
    (probeFailed (failProbe (folderUrlOf demoId)) = true ∧
      probeFailed (failProbe (fileViewUrlOf demoId)) = true) ∧
    ((demoId ∈ allCandidateIds demoHtml →
        demoId ∈ (passA failProbe demoHtml).invalidIds ∧
          demoId ∈ passBCandidates failProbe demoHtml) ∧
      (∀ e ∈ (passA failProbe demoHtml).validFolders, e.id ≠ demoId) ∧
      (∀ e ∈ (passA failProbe demoHtml).detectedFiles, e.id ≠ demoId) ∧
      (∀ e ∈ (scrapeCore failProbe demoHtml).files, e.id ≠ demoId) ∧
      scrapePublicFolder failProbe (.ok 200 demoHtml) demoId =
        .ok (scrapeCore failProbe demoHtml)) :=
  ⟨⟨by decide, by decide⟩,
    failed_probe_nonfatal failProbe demoHtml demoId demoId (by decide) (by decide)⟩

theorem allCandidateIds_nodup (html : Str) : (allCandidateIds html).Nodup := by
  unfold allCandidateIds
  split
  · simp
  · exact nodup_dedupKeepFirst _

/-- C4: invariant of every completed resolution: every Entry.id in the output
is unique, and the output is exactly the Pass A container entries, then the
leaf entries detected by extension during Pass A, then the leaf entries
confirmed in Pass B — with discovery order preserved inside each group (each
group's id sequence is a subsequence of the candidate order) and no further
sorting applied. -/
theorem resolution_unique_ids_and_order (probe : Str → ProbeResult)
    (primary : ProbeResult) (folderId : Str) (r : PublicScrapeResult)
    (h : scrapePublicFolder probe primary folderId = .ok r) :
    (r.files.map DriveFile.id).Nodup ∧
    ∃ html, r = scrapeCore probe html ∧
      r.files = (passA probe html).validFolders ++
        (passA probe html).detectedFiles ++ passB probe html ∧
      List.Sublist ((passA probe html).validFolders.map DriveFile.id)
        (allCandidateIds html) ∧
      List.Sublist ((passA probe html).detectedFiles.map DriveFile.id)
        (allCandidateIds html) ∧
      List.Sublist ((passB probe html).map DriveFile.id)
        (passBCandidates probe html) := by
  -- extract the fetched markup from the non-error run
  obtain ⟨html, hr⟩ : ∃ html, r = scrapeCore probe html := by
    cases primary with
    | err => exact absurd h (by simp [scrapePublicFolder])
    | ok st body =>
      unfold scrapePublicFolder at h
      dsimp only at h
      split_ifs at h
      all_goals first
        | (exfalso; exact Except.noConfusion h)
        | exact ⟨body, by simpa using h.symm⟩
  subst hr
  set names := extractFolderNamesFromRawResponse html with hnames
  have hids_nodup : (allCandidateIds html).Nodup := allCandidateIds_nodup html
  have hfiles := scrapeCore_files probe html
  have hvf_sub := validFolders_map_sublist probe names (allCandidateIds html)
  have hdf_sub := detectedFiles_map_sublist probe names (allCandidateIds html)
  have hpb_sub := verifyFileIds_map_sublist probe names (passBCandidates probe html)
  have hvf_nodup : ((passA probe html).validFolders.map DriveFile.id).Nodup :=
    hvf_sub.nodup hids_nodup
  have hdf_nodup : ((passA probe html).detectedFiles.map DriveFile.id).Nodup :=
    hdf_sub.nodup hids_nodup
  have hpbc_nodup : (passBCandidates probe html).Nodup := nodup_dedupKeepFirst _
  have hpb_nodup : ((passB probe html).map DriveFile.id).Nodup :=
    hpb_sub.nodup hpbc_nodup
  have hvf_mem : ∀ x ∈ (passA probe html).validFolders.map DriveFile.id,
      ∃ e, passAStep probe names x = .folder e := by
    intro x hx
    obtain ⟨e, he, rfl⟩ := List.mem_map.mp hx
    obtain ⟨i, hi, hs⟩ := mem_validFolders_iff.mp he
    have : e.id = i := passAStep_folder_id hs
    rw [this]
    exact ⟨e, hs⟩
  have hdf_mem : ∀ x ∈ (passA probe html).detectedFiles.map DriveFile.id,
      ∃ e, passAStep probe names x = .file e := by
    intro x hx
    obtain ⟨e, he, rfl⟩ := List.mem_map.mp hx
    obtain ⟨i, hi, hs⟩ := mem_detectedFiles_iff.mp he
    have : e.id = i := passAStep_file_id hs
    rw [this]
    exact ⟨e, hs⟩
  have hpb_mem : ∀ x ∈ (passB probe html).map DriveFile.id,
      passAStep probe names x = .invalid := by
    intro x hx
    obtain ⟨e, he, rfl⟩ := List.mem_map.mp hx
    obtain ⟨i, hi, hs⟩ := mem_verifyFileIds_iff.mp he
    have hei : e.id = i := (passBStep_some_inv hs).1
    rw [hei]
    have : i ∈ (passA probe html).invalidIds := mem_dedupKeepFirst.mp hi
    exact (mem_invalidIds_iff.mp this).2
  refine ⟨?_, html, rfl, hfiles, hvf_sub, hdf_sub, hpb_sub⟩
  rw [hfiles, List.map_append, List.map_append]
  rw [List.nodup_append]
  refine ⟨?_, hpb_nodup, ?_⟩
  · rw [List.nodup_append]
    refine ⟨hvf_nodup, hdf_nodup, ?_⟩
    intro x hx1 hx2
    obtain ⟨e1, hs1⟩ := hvf_mem x hx1
    obtain ⟨e2, hs2⟩ := hdf_mem x hx2
    rw [hs1] at hs2
    exact absurd hs2 (by simp)
  · intro x hx1 hx2
    have hinv := hpb_mem x hx2
    rcases List.mem_append.mp hx1 with h1 | h2
    · obtain ⟨e1, hs1⟩ := hvf_mem x h1
      rw [hinv] at hs1
      exact absurd hs1 (by simp)
    · obtain ⟨e2, hs2⟩ := hdf_mem x h2
      rw [hinv] at hs2
      exact absurd hs2 (by simp)

/-- Witness for C4: the demo page on which every probe fails resolves to the
empty listing, trivially grouped and with unique ids. -/
theorem resolution_unique_ids_and_order_witness :
    scrapePublicFolder failProbe (.ok 200 demoHtml) demoId =
        .ok ⟨[], true⟩ ∧
      (((⟨[], true⟩ : PublicScrapeResult).files.map DriveFile.id).Nodup ∧
        ∃ html, (⟨[], true⟩ : PublicScrapeResult) = scrapeCore failProbe html ∧
          (⟨[], true⟩ : PublicScrapeResult).files =
            (passA failProbe html).validFolders ++
              (passA failProbe html).detectedFiles ++ passB failProbe html ∧
          List.Sublist ((passA failProbe html).validFolders.map DriveFile.id)
            (allCandidateIds html) ∧
          List.Sublist ((passA failProbe html).detectedFiles.map DriveFile.id)
            (allCandidateIds html) ∧
          List.Sublist ((passB failProbe html).map DriveFile.id)
            (passBCandidates failProbe html)) :=
  ⟨by rfl,
    resolution_unique_ids_and_order failProbe (.ok 200 demoHtml) demoId
      ⟨[], true⟩ (by rfl)⟩

theorem candAt_start {html : Str} {o : Nat} {c : Cand}
    (h : candAt html o = some c) : c.startIdx = o := by
  unfold candAt at h
  cases hidx : indexOfFrom endMarkerLit html o with
  | none => rw [hidx] at h; exact absurd h (by simp)
  | some e =>
    rw [hidx] at h
    have : c = ⟨o, e + endMarkerLit.length, e + endMarkerLit.length - o⟩ := by
      simpa using h.symm
    rw [this]

theorem candAt_eq_some {html : Str} {o : Nat} {c : Cand}
    (h : candAt html o = some c) :
    ∃ e, indexOfFrom endMarkerLit html o = some e ∧
      c = ⟨o, e + endMarkerLit.length, e + endMarkerLit.length - o⟩ := by
  unfold candAt at h
  cases hidx : indexOfFrom endMarkerLit html o with
  | none => rw [hidx] at h; exact absurd h (by simp)
  | some e =>
    rw [hidx] at h
    exact ⟨e, rfl, by simpa using h.symm⟩

theorem markerLit_ne_nil : markerLit ≠ [] := by decide

theorem markerLit_overlap_free :
    ∀ d, 0 < d → d < markerLit.length →
      markerLit.drop d ≠ markerLit.take (markerLit.length - d) := by
  intro d h1 h2
  have hlen : markerLit.length = 14 := by decide
  rw [hlen] at h2 ⊢
  interval_cases d <;> decide

theorem mem_markerOccurrences_sound {html : Str} {o : Nat}
    (h : o ∈ markerOccurrences html) :
    strStarts markerLit (html.drop o) = true := by
  unfold markerOccurrences at h
  have := (occAux_sound markerLit_ne_nil (html.length + 1) html 0 o
    (by omega) h).2
  simpa using this

theorem mem_markerOccurrences_complete {html : Str} {o : Nat}
    (h : strStarts markerLit (html.drop o) = true) :
    o ∈ markerOccurrences html := by
  unfold markerOccurrences
  apply occAux_complete markerLit_ne_nil markerLit_overlap_free (html.length + 1)
    html 0 o (by omega) (by omega)
  simpa using h

theorem candidatesOf_pairwise_start (html : Str) :
    (candidatesOf html).Pairwise (fun a b => a.startIdx < b.startIdx) := by
  unfold candidatesOf
  rw [List.pairwise_filterMap]
  have hocc : (markerOccurrences html).Pairwise (· < ·) := by
    unfold markerOccurrences
    exact occAux_pairwise markerLit_ne_nil (html.length + 1) html 0 (by omega)
  apply hocc.imp
  intro a b hab x hx y hy
  rw [candAt_start hx, candAt_start hy]
  exact hab

/-- C3 counterexample: on a page with two marker pairs of equal span (29
characters each) the locator returns the first pair, while the other,
distinct pair has span not less than the chosen one — refuting the claim
that no other marker pair has length ≥ the chosen one. -/
theorem locateBlock_strict_maximality_cex :
    findBigScriptBlock tieHtml =
      some ⟨lit "// Google Inc.</script></div>", 29⟩ ∧
    candidatesOf tieHtml = [⟨0, 29, 29⟩, ⟨29, 58, 29⟩] ∧
    (⟨29, 58, 29⟩ : Cand) ≠ ⟨0, 29, 29⟩ ∧
    ¬((⟨29, 58, 29⟩ : Cand).len < (⟨0, 29, 29⟩ : Cand).len) := by decide

/-- C3 (amended): for every markup input with at least one opening marker
followed by a closing marker, the locator returns a marker pair of maximal
span: no other pair in the input has length strictly greater than the chosen
one (on ties the earliest pair is kept). -/
theorem locateBlock_maximal_span (html : Str) (c0 : Cand) (rest : List Cand)
    (hc : candidatesOf html = c0 :: rest) :
    ∃ c, findBigScriptBlock html =
        some ⟨strSub html c.startIdx c.endIdx, c.endIdx⟩ ∧
      c ∈ candidatesOf html ∧
      ∀ c2 ∈ candidatesOf html, c2.len ≤ c.len := by
  refine ⟨pickLargest c0 rest, findBigScriptBlock_eq_some hc, ?_, ?_⟩
  · rw [hc]
    exact pickLargest_mem c0 rest
  · rw [hc]
    exact pickLargest_ge c0 rest

/-- Witness for the amended C3 at the tie page. -/
theorem locateBlock_maximal_span_witness :
    candidatesOf tieHtml = ⟨0, 29, 29⟩ :: [⟨29, 58, 29⟩] ∧
    ∃ c, findBigScriptBlock tieHtml =
        some ⟨strSub tieHtml c.startIdx c.endIdx, c.endIdx⟩ ∧
      c ∈ candidatesOf tieHtml ∧
      ∀ c2 ∈ candidatesOf tieHtml, c2.len ≤ c.len :=
  ⟨by decide,
    locateBlock_maximal_span tieHtml ⟨0, 29, 29⟩ [⟨29, 58, 29⟩] (by decide)⟩

/-- C10: tie-breaking and pairing of the blob locator: the returned block
corresponds to a candidate built by pairing an opening-marker occurrence with
the nearest closing marker at or after it; every opening-marker occurrence
followed by some closing marker yields a candidate; the winner has maximal
span; and a candidate that starts earlier than the winner is strictly
shorter — so a later pair of equal length never displaces an earlier one. -/
theorem blob_locator_pairing_tiebreak (html : Str) (r : BigBlockResult)
    (h : findBigScriptBlock html = some r) :
    ∃ c ∈ candidatesOf html,
      r = ⟨strSub html c.startIdx c.endIdx, c.endIdx⟩ ∧
      (∀ c2 ∈ candidatesOf html, c2.len ≤ c.len) ∧
      (∀ c2 ∈ candidatesOf html, c2.startIdx < c.startIdx → c2.len < c.len) ∧
      (∀ c2 ∈ candidatesOf html,
        strStarts markerLit (html.drop c2.startIdx) = true ∧
        endMarkerLit.length ≤ c2.endIdx ∧
        c2.startIdx ≤ c2.endIdx - endMarkerLit.length ∧
        strStarts endMarkerLit (html.drop (c2.endIdx - endMarkerLit.length)) = true ∧
        (∀ j, c2.startIdx ≤ j → j < c2.endIdx - endMarkerLit.length →
          strStarts endMarkerLit (html.drop j) = false) ∧
        c2.len = c2.endIdx - c2.startIdx) ∧
      (∀ i j, strStarts markerLit (html.drop i) = true →
        i ≤ j → strStarts endMarkerLit (html.drop j) = true →
        ∃ c2 ∈ candidatesOf html, c2.startIdx = i) := by
  cases hc : candidatesOf html with
  | nil =>
    rw [findBigScriptBlock_eq_none_iff.mpr hc] at h
    exact absurd h (by simp)
  | cons c0 rest =>
    have heq := findBigScriptBlock_eq_some hc
    rw [heq] at h
    have hr : r = ⟨strSub html (pickLargest c0 rest).startIdx
        (pickLargest c0 rest).endIdx, (pickLargest c0 rest).endIdx⟩ := by
      simpa using h.symm
    refine ⟨pickLargest c0 rest, pickLargest_mem c0 rest,
      hr, pickLargest_ge c0 rest, ?_, ?_, ?_⟩
    · -- earlier candidates are strictly shorter
      intro c2 hc2 hstart
      obtain ⟨l1, l2, hdec, hlt, hle⟩ := pickLargest_spec c0 rest
      have hpw := candidatesOf_pairwise_start html
      rw [hc, hdec] at hpw
      have hc2' : c2 ∈ l1 := by
        rw [hdec] at hc2
        rcases List.mem_append.mp hc2 with h1 | h2
        · exact h1
        · exfalso
          rcases List.mem_cons.mp h2 with rfl | h3
          · omega
          · have := (List.pairwise_append.mp hpw).2.1
            have hlt2 := (List.pairwise_cons.mp this).1 c2 h3
            omega
      exact hlt c2 hc2'
    · -- pairing soundness for every candidate
      intro c2 hc2
      obtain ⟨o, ho, hcand⟩ := List.mem_filterMap.mp (by rw [← hc] at hc2; exact hc2)
      obtain ⟨e, hidx, rfl⟩ := candAt_eq_some hcand
      obtain ⟨hoe, hocc, hmin⟩ := indexOfFrom_some hidx
      have hmarker := mem_markerOccurrences_sound ho
      dsimp only
      refine ⟨hmarker, by omega, by omega, ?_, ?_, by omega⟩
      · have : e + endMarkerLit.length - endMarkerLit.length = e := by omega
        rw [this]
        exact hocc
      · intro j hj1 hj2
        have : e + endMarkerLit.length - endMarkerLit.length = e := by omega
        rw [this] at hj2
        exact hmin j hj1 hj2
    · -- pairing completeness: every opening occurrence with a closing marker
      intro i j hmark hij hclose
      have hocc : i ∈ markerOccurrences html := mem_markerOccurrences_complete hmark
      cases hidx : indexOfFrom endMarkerLit html i with
      | none =>
        exact absurd hclose (by simpa using indexOfFrom_none hidx j hij)
      | some e =>
        refine ⟨⟨i, e + endMarkerLit.length, e + endMarkerLit.length - i⟩, ?_, rfl⟩
        rw [← hc]
        apply List.mem_filterMap.mpr
        refine ⟨i, hocc, ?_⟩
        unfold candAt
        rw [hidx]

/-- Witness for C10 at the tie page: the winner is the earlier of the two
equal-span pairs. -/
theorem blob_locator_pairing_tiebreak_witness :
    findBigScriptBlock tieHtml =
      some ⟨lit "// Google Inc.</script></div>", 29⟩ ∧
    ∃ c ∈ candidatesOf tieHtml,
      (⟨lit "// Google Inc.</script></div>", 29⟩ : BigBlockResult) =
        ⟨strSub tieHtml c.startIdx c.endIdx, c.endIdx⟩ ∧
      (∀ c2 ∈ candidatesOf tieHtml, c2.len ≤ c.len) ∧
      (∀ c2 ∈ candidatesOf tieHtml, c2.startIdx < c.startIdx → c2.len < c.len) ∧
      (∀ c2 ∈ candidatesOf tieHtml,
        strStarts markerLit (tieHtml.drop c2.startIdx) = true ∧
        endMarkerLit.length ≤ c2.endIdx ∧
        c2.startIdx ≤ c2.endIdx - endMarkerLit.length ∧
        strStarts endMarkerLit (tieHtml.drop (c2.endIdx - endMarkerLit.length)) = true ∧
        (∀ j, c2.startIdx ≤ j → j < c2.endIdx - endMarkerLit.length →
          strStarts endMarkerLit (tieHtml.drop j) = false) ∧
        c2.len = c2.endIdx - c2.startIdx) ∧
      (∀ i j, strStarts markerLit (tieHtml.drop i) = true →
        i ≤ j → strStarts endMarkerLit (tieHtml.drop j) = true →
        ∃ c2 ∈ candidatesOf tieHtml, c2.startIdx = i) :=
  ⟨by decide,
    blob_locator_pairing_tiebreak tieHtml
      ⟨lit "// Google Inc.</script></div>", 29⟩ (by decide)⟩

/-! ### Folder-name pattern lemmas (Membership Index) -/

theorem matchFolderPatAt_eq_some {u g r : Str}
    (h : matchFolderPatAt u = some (g, r)) :
    u = (escQuote ++ g) ++ (vndTail ++ r) ∧ g ≠ [] ∧ ∀ c ∈ g, ¬(c = bs) := by
  unfold matchFolderPatAt at h
  split at h
  case isFalse => exact absurd h (by simp)
  case isTrue hq =>
    simp only at h
    split at h
    case isTrue => exact absurd h (by simp)
    case isFalse hg =>
      split at h
      case isFalse => exact absurd h (by simp)
      case isTrue hv =>
        obtain ⟨hgeq, hreq⟩ : (u.drop 4).takeWhile (fun c => !(c == bs)) = g ∧
            (u.drop 4).drop
              (((u.drop 4).takeWhile (fun c => !(c == bs))).length + vndTail.length) = r := by
          have := h
          simp only [Option.some.injEq, Prod.mk.injEq] at this
          exact this
        have hu4 : u = escQuote ++ u.drop 4 := by
          have := strStarts_eq_append hq
          simpa [escQuote] using this
        have hsplit2 : u.drop 4 = g ++ (u.drop 4).drop g.length := by
          rw [← hgeq, drop_length_takeWhile]
          exact (List.takeWhile_append_dropWhile _ _).symm
        have hsplit3 : (u.drop 4).drop g.length =
            vndTail ++ ((u.drop 4).drop g.length).drop vndTail.length := by
          rw [hgeq] at hv
          exact strStarts_eq_append hv
        have hrfinal : ((u.drop 4).drop g.length).drop vndTail.length = r := by
          rw [List.drop_drop]
          rw [hgeq] at hreq
          exact hreq
    
        refine ⟨?_, ?_, ?_⟩
        · conv_lhs => rw [hu4]
          rw [List.append_assoc]
          congr 1
          rw [hsplit2]
          congr 1
          rw [hsplit3, hrfinal]
        · intro hgnil
          rw [hgeq] at hg
          exact hg (by simp [hgnil])
        · intro c hc
          rw [← hgeq] at hc
          have := List.mem_takeWhile_imp hc
          simpa using this

theorem matchFolderPatAt_rest {u g r : Str}
    (h : matchFolderPatAt u = some (g, r)) :
    r = u.drop (4 + g.length + vndTail.length) ∧
      u.length = 4 + g.length + vndTail.length + r.length := by
  obtain ⟨hu, -, -⟩ := matchFolderPatAt_eq_some h
  constructor
  · conv_rhs => rw [hu, List.append_assoc]
    rw [show 4 + g.length + vndTail.length =
      escQuote.length + (g.length + vndTail.length) from by
        have h4 : escQuote.length = 4 := rfl
        omega]
    rw [List.drop_append, List.drop_append, List.drop_left]
  · rw [hu]
    simp [escQuote]
    omega

theorem matchFolderPatAt_none_of_head (c : Char) (hc : ¬(c = bs)) (w : Str) :
    matchFolderPatAt (c :: w) = none := by
  unfold matchFolderPatAt
  have h2 : (bs == c) = false := by
    simp [Ne.symm hc]
  simp [escQuote, strStarts, h2]

theorem matchFolderPatAt_no_overlap {u g r : Str}
    (h : matchFolderPatAt u = some (g, r)) :
    ∀ d, 0 < d → d < 4 + g.length + vndTail.length →
      matchFolderPatAt (u.drop d) = none := by
  obtain ⟨hu, hgne, hchars⟩ := matchFolderPatAt_eq_some h
  intro d hd0 hdlt
  have hvndlen : vndTail.length = 25 := by decide
  by_cases hc1 : d < 4
  · have hdrop : u.drop d = escQuote.drop d ++ (g ++ (vndTail ++ r)) := by
      rw [hu, List.append_assoc]
      apply List.drop_append_of_le_length
      have h4 : escQuote.length = 4 := rfl
      omega
    rw [hdrop]
    interval_cases d
    · simp [escQuote, matchFolderPatAt, strStarts, bs]
    · simp [escQuote, matchFolderPatAt, strStarts, bs]
    · simp [escQuote, matchFolderPatAt, strStarts, bs]
  · have hstep : u.drop d = (g ++ (vndTail ++ r)).drop (d - 4) := by
      rw [hu, List.append_assoc]
      conv_lhs => rw [show d = escQuote.length + (d - 4) from by
        have h4 : escQuote.length = 4 := rfl
        omega]
      exact List.drop_append _
    by_cases hc2 : d < 4 + g.length
    · have hk : d - 4 < g.length := by omega
      have hdrop : u.drop d = g.drop (d - 4) ++ (vndTail ++ r) := by
        rw [hstep]
        apply List.drop_append_of_le_length
        omega
      rw [hdrop, List.drop_eq_getElem_cons hk, List.cons_append]
      exact matchFolderPatAt_none_of_head _ (hchars _ (List.getElem_mem hk)) _
    · have he25 : d - (4 + g.length) < 25 := by omega
      have hstep2 : u.drop d = (vndTail ++ r).drop (d - (4 + g.length)) := by
        rw [hstep]
        conv_lhs => rw [show d - 4 = g.length + (d - (4 + g.length)) from by omega]
        exact List.drop_append _
      have hdrop : u.drop d = vndTail.drop (d - (4 + g.length)) ++ r := by
        rw [hstep2]
        apply List.drop_append_of_le_length
        omega
      rw [hdrop]
      set e := d - (4 + g.length) with he
      interval_cases e <;>
        simp [matchFolderPatAt, escQuote, vndTail, strStarts, bs, lit, List.takeWhile]

theorem extractLoopF_sound {n : Str} : ∀ (fuel : Nat) (s : Str), s.length < fuel →
    n ∈ extractLoopF fuel s →
    ∃ k g r, matchFolderPatAt (s.drop k) = some (g, r) ∧ postName g = some n := by
  intro fuel
  induction fuel with
  | zero => intro s h; omega
  | succ fuel ih =>
    intro s hlen hmem
    rw [extractLoopF] at hmem
    cases hscan : scanFirst matchFolderPatAt s with
    | none => rw [hscan] at hmem; simp at hmem
    | some p =>
      obtain ⟨g, rest⟩ := p
      rw [hscan] at hmem
      obtain ⟨k0, hk0, -⟩ := scanFirst_eq_some hscan
      rcases List.mem_append.mp hmem with h1 | h2
      · refine ⟨k0, g, rest, hk0, ?_⟩
        cases hpn : postName g with
        | none => rw [hpn] at h1; simp at h1
        | some m =>
          rw [hpn] at h1
          simp only [Option.toList_some, List.mem_singleton] at h1
          rw [h1]
      · have hrw : rest = s.drop (k0 + (4 + g.length + vndTail.length)) := by
          obtain ⟨hr, -⟩ := matchFolderPatAt_rest hk0
          rw [hr, List.drop_drop]
        have hrest : rest.length < s.length := by
          obtain ⟨-, hl⟩ := matchFolderPatAt_rest hk0
          have h1 : (s.drop k0).length ≤ s.length := by
            simp [List.length_drop]
          have hvnd : 0 < vndTail.length := by decide
          omega
        obtain ⟨k', g', r', hk', hpn⟩ := ih rest (by omega) h2
        refine ⟨k0 + (4 + g.length + vndTail.length) + k', g', r', ?_, hpn⟩
        rw [show s.drop (k0 + (4 + g.length + vndTail.length) + k') = rest.drop k' from by
          rw [hrw, List.drop_drop]]
        exact hk'

theorem extractLoopF_complete {n : Str} : ∀ (fuel : Nat) (s : Str), s.length < fuel →
    ∀ k g r, matchFolderPatAt (s.drop k) = some (g, r) → postName g = some n →
    n ∈ extractLoopF fuel s := by
  intro fuel
  induction fuel with
  | zero => intro s h; omega
  | succ fuel ih =>
    intro s hlen k g r hmatch hpn
    rw [extractLoopF]
    cases hscan : scanFirst matchFolderPatAt s with
    | none =>
      exfalso
      have := scanFirst_eq_none_iff.mp hscan k
      rw [this] at hmatch
      exact absurd hmatch (by simp)
    | some p =>
      obtain ⟨g0, rest0⟩ := p
      obtain ⟨k0, hk0, hbefore⟩ := scanFirst_eq_some hscan
      apply List.mem_append.mpr
      rcases lt_trichotomy k k0 with hlt | heq | hgt
      · rw [hbefore k hlt] at hmatch
        exact absurd hmatch (by simp)
      · subst heq
        rw [hk0] at hmatch
        obtain ⟨rfl, rfl⟩ : g0 = g ∧ rest0 = r := by
          simpa using hmatch
        left
        rw [hpn]
        simp
      · have hrw : rest0 = s.drop (k0 + (4 + g0.length + vndTail.length)) := by
          obtain ⟨hr, -⟩ := matchFolderPatAt_rest hk0
          rw [hr, List.drop_drop]
        by_cases hin : k < k0 + (4 + g0.length + vndTail.length)
        · exfalso
          have hno := matchFolderPatAt_no_overlap hk0 (k - k0) (by omega) (by omega)
          rw [List.drop_drop, show k0 + (k - k0) = k from by omega] at hno
          rw [hno] at hmatch
          exact absurd hmatch (by simp)
        · right
          have hrest : rest0.length < s.length := by
            obtain ⟨-, hl⟩ := matchFolderPatAt_rest hk0
            have h1 : (s.drop k0).length ≤ s.length := by
              simp [List.length_drop]
            have hvnd : 0 < vndTail.length := by decide
            omega
          apply ih rest0 (by omega) (k - (k0 + (4 + g0.length + vndTail.length))) g r ?_ hpn
          rw [hrw, List.drop_drop, show k0 + (4 + g0.length + vndTail.length) +
            (k - (k0 + (4 + g0.length + vndTail.length))) = k from by omega]
          exact hmatch

/-- C5 counterexample: the code's pattern requires only the application\/vnd
prefix, not the full folder MIME type; on a blob that tags sheet.xls with
application\/vnd.ms-excel the index contains sheet.xls even though the folder
type application\/vnd.google-apps.folder occurs nowhere in the input —
refuting "only names the provider tags with the folder type". -/
theorem membership_index_folder_type_cex :
    extractFolderNamesFromRawResponse cexIvd = [lit "sheet.xls"] ∧
    indexOfFrom (lit "application\\/vnd.google-apps.folder") cexIvd 0 = none := by
  decide

/-- C5 (amended): the Membership Index is exactly the set of post-processed
names (trimmed, truncated before a positive-index embedded comma when the
part before it is nonempty) captured by the escaped-quote pattern
name-quote-comma-quote-application\/vnd anywhere in the embedded assignment
blob — any application/vnd-prefixed type, not only the folder type — and it
is empty when the embedded assignment is absent from the markup. -/
theorem membership_index_exact (raw : Str) :
    (scanFirst matchIvdAt raw = none → extractFolderNamesFromRawResponse raw = []) ∧
    (∀ content, scanFirst matchIvdAt raw = some content →
      ∀ n, n ∈ extractFolderNamesFromRawResponse raw ↔
        ∃ k g r, matchFolderPatAt (content.drop k) = some (g, r) ∧
          postName g = some n) := by
  constructor
  · intro h
    unfold extractFolderNamesFromRawResponse
    rw [h]
  · intro content hc n
    unfold extractFolderNamesFromRawResponse
    rw [hc, mem_dedupKeepFirst]
    constructor
    · exact fun hm => extractLoopF_sound _ _ (by omega) hm
    · rintro ⟨k, g, r, hm, hpn⟩
      exact extractLoopF_complete _ _ (by omega) k g r hm hpn

/-- Witness for the amended C5 at the concrete blob: sheet.xls is in the
index, and the characterization applies. -/
theorem membership_index_exact_witness :
    scanFirst matchIvdAt cexIvd =
      some (lit "\\x22sheet.xls\\x22,\\x22application\\/vnd.ms-excel\\x22") ∧
    (lit "sheet.xls" ∈ extractFolderNamesFromRawResponse cexIvd ↔
      ∃ k g r, matchFolderPatAt
          ((lit "\\x22sheet.xls\\x22,\\x22application\\/vnd.ms-excel\\x22").drop k) =
          some (g, r) ∧ postName g = some (lit "sheet.xls")) :=
  ⟨by decide,
    (membership_index_exact cexIvd).2
      (lit "\\x22sheet.xls\\x22,\\x22application\\/vnd.ms-excel\\x22") (by decide)
      (lit "sheet.xls")⟩

end DriveScraper
